import Mathlib

/-
Verification of the dendritic-growth-model repository (van Pelt branching
model): a shallow embedding of src/model.py and src/stats.py, with theorems
settling the specification claims.

Modelling conventions:
- Python floats are modelled as real numbers.
- Python exceptions are modelled by the Except monad with the PyErr type.
- The single global random generator is modelled by an oracle function
  from natural numbers (draw index) to reals, consumed left to right in
  the order the Python code calls random.random / random.gammavariate.
- Python sets (terminal_segments, intermediate_segments) are modelled as
  lists without duplicates; the list order stands for one admissible
  iteration order of the unordered Python set.
-/

namespace DendriticModel

/-- Python exceptions raised (or raisable) by the embedded code paths.
The invalidModelParam constructor is modelled from the spec: the
model-parameter error class InvalidModelParam is imported by src/stats.py
and src/estimator.py from the model module, but its definition is absent
from src/model.py. -/
inductive PyErr where
  | typeError
  | zeroDivisionError
  | valueError
  | statisticsError
  | assertionError
  | keyError
  | invalidModelParam
  | structuralError
deriving DecidableEq, Repr

/-- A Python value appearing in a measures mapping returned by one run:
either a scalar number or a list of numbers (as produced by stats()). -/
inductive PyVal where
  | num (x : ℝ)
  | list (xs : List ℝ)

/-- The list of reals a PyVal is coerced to by add_listified. -/
def PyVal.toL : PyVal → List ℝ
  | .num x => [x]
  | .list xs => xs

/-- Embedding of add_listified from src/stats.py (map_with_stats inner
function): wraps non-list arguments into singleton lists and concatenates. -/
def add_listified (x y : PyVal) : PyVal :=
  .list (x.toL ++ y.toL)

/-- A Python dict from keys to values, modelled extensionally. -/
def Dict (κ : Type) : Type := κ → Option PyVal

/-- Embedding of the plucky.merge external-library call as used in
map_with_stats (recurse_list=False, flat string-keyed dicts of scalars or
lists): the key sets are united; a key present in both mappings gets the
combining function add_listified applied; a key present in only one keeps
its value unchanged. -/
def mergeD (x y : Dict κ) : Dict κ := fun k =>
  match x k, y k with
  | some a, some b => some (add_listified a b)
  | some a, none => some a
  | none, some b => some b
  | none, none => none

/-- The accumulator dict built by the run loop of map_with_stats:
sums = {}; for args in argset: sums = merge(sums, fn(args), add_listified). -/
def sumsAfter (fn : α → Dict κ) (argset : List α) : Dict κ :=
  argset.foldl (fun acc a => mergeD acc (fn a)) (fun _ => none)

/-- The descriptive-statistics record computed per key by map_with_stats. -/
structure StatsRec where
  total : ℝ
  mean : ℝ
  median : ℝ
  stdev : ℝ

/-- Python sum(v) over an accumulated value: a bare scalar is not iterable,
so sum raises a TypeError; sum of a list of numbers succeeds. -/
def pySum : PyVal → Except PyErr ℝ
  | .num _ => .error .typeError
  | .list xs => .ok xs.sum

/-- Python statistics.mean: TypeError on a bare scalar, StatisticsError on
an empty list, the arithmetic mean otherwise. -/
noncomputable def pyMean : PyVal → Except PyErr ℝ
  | .num _ => .error .typeError
  | .list xs => if xs = [] then .error .statisticsError
                else .ok (xs.sum / (xs.length : ℝ))

/-- Python statistics.median: sorts the values and takes the middle one
(mean of the two middle ones for even length); StatisticsError on empty. -/
noncomputable def pyMedian : PyVal → Except PyErr ℝ
  | .num _ => .error .typeError
  | .list xs =>
    if xs = [] then .error .statisticsError
    else
      let s := xs.mergeSort (fun a b => decide (a ≤ b))
      let n := xs.length
      if n % 2 = 1 then .ok (s.getD (n / 2) 0)
      else .ok ((s.getD (n / 2 - 1) 0 + s.getD (n / 2) 0) / 2)

/-- Python statistics.stdev: the sample standard deviation, which requires
at least two data points and raises StatisticsError otherwise. -/
noncomputable def pyStdev : PyVal → Except PyErr ℝ
  | .num _ => .error .typeError
  | .list xs =>
    if xs.length < 2 then .error .statisticsError
    else
      let m := xs.sum / (xs.length : ℝ)
      .ok (Real.sqrt ((xs.map (fun x => (x - m) ^ 2)).sum / ((xs.length : ℝ) - 1)))

/-- The per-key statistics computation of map_with_stats, in the evaluation
order of the Python dict literal: total, mean, median, stdev; the first
raising computation aborts the record. -/
noncomputable def statsOf (v : PyVal) : Except PyErr StatsRec := do
  let t ← pySum v
  let m ← pyMean v
  let md ← pyMedian v
  let sd ← pyStdev v
  .ok ⟨t, m, md, sd⟩

/-- True when the per-key statistics computation raises. -/
def statsFails (v : PyVal) : Prop := ∃ e, statsOf v = .error e

/-- Embedding of map_with_stats from src/stats.py. On any per-key failure
the Python code prints the first argument set (argset[0]) and raises the
bare InvalidModelParam class; the error value here carries the printed
argument set alongside the raised error so the identification behavior is
observable. On success it returns meta.n_samples together with the per-key
statistics records. -/
noncomputable def map_with_stats (fn : α → Dict κ) (argset : List α) :
    Except (PyErr × Option α) (ℕ × (κ → Option StatsRec)) :=
  let sums := sumsAfter fn argset
  have : Decidable (∃ k v, sums k = some v ∧ statsFails v) := Classical.propDecidable _
  if ∃ k v, sums k = some v ∧ statsFails v then
    .error (.invalidModelParam, argset.head?)
  else
    .ok (argset.length, fun k => (sums k).bind (fun v => (statsOf v).toOption))

/-! Core growth model: embedding of src/model.py. Segments live in an
arena (a list indexed by allocation order), so the mutable Python object
graph becomes explicit state passing; children always have larger arena
indices than their parent. -/

/-- The parameter mapping built by DendriticTree.__init__ (the fields the
growth code reads; alpha is the offset, beta the scale, gamma the shape of
each of the three gamma distributions). -/
structure Params where
  B : ℝ
  E : ℝ
  S : ℝ
  N_be : ℕ
  N_e : ℝ
  alpha_in : ℝ
  beta_in : ℝ
  gamma_in : ℝ
  alpha_be : ℝ
  beta_be : ℝ
  gamma_be : ℝ
  alpha_e : ℝ
  beta_e : ℝ
  gamma_e : ℝ

instance : Inhabited Params := ⟨⟨1, 1, 0, 1, 0, 0, 1, 1, 0, 1, 1, 0, 1, 1⟩⟩

/-- One Segment object of src/model.py. Children are stored as a pair of
arena indices because the source only ever assigns a two-element list;
children = none is Python's children = None (never branched). -/
structure Seg where
  order : ℕ
  degree : ℕ
  parent : Option ℕ
  children : Option (ℕ × ℕ)
  created : ℤ
  initial_len : ℝ
  elongated_len : ℝ

instance : Inhabited Seg := ⟨⟨0, 1, none, none, 0, 0, 0⟩⟩

/-- The Segment.total_len derived property. -/
def Seg.total_len (s : Seg) : ℝ := s.initial_len + s.elongated_len

/-- The DendriticTree state: parameters, the segment arena, and the
terminal/intermediate segment sets as duplicate-free lists. -/
structure Tree where
  params : Params
  segs : List Seg
  terminal : List ℕ
  intermediate : List ℕ
  root : Option ℕ

/-- Arena lookup (indices produced by the code are always in range). -/
def Tree.seg (tr : Tree) (i : ℕ) : Seg := tr.segs.getD i default

/-- Ghost observation of one branch attempt: the time bin, the attempted
segment, and the live terminal count and normalization constant that the
branching-probability computation reads at that moment. The log is an
observer only; no embedded code reads it. -/
structure Attempt where
  bin : ℤ
  seg : ℕ
  nI : ℕ
  cinv : ℝ

/-- A full run state: the tree, the index of the next random draw to be
consumed from the oracle, and the ghost attempt log. -/
structure St where
  tree : Tree
  ix : ℕ
  log : List Attempt

instance : Inhabited St := ⟨⟨⟨default, [], [], [], none⟩, 0, []⟩⟩

/-- Update the segment at index i in the arena. -/
def St.setSeg (s : St) (i : ℕ) (f : Seg → Seg) : St :=
  { s with tree := { s.tree with segs := s.tree.segs.set i (f (s.tree.seg i)) } }

/-- Embedding of random.gammavariate(alpha, beta): Python raises ValueError
when the shape or scale is non-positive, otherwise returns one sample,
modelled as the next oracle value (a faithful oracle yields positive
values at these positions); the draw counter advances. -/
noncomputable def gammavariate (ω : ℕ → ℝ) (alpha beta : ℝ) (s : St) :
    Except PyErr (ℝ × St) :=
  if alpha ≤ 0 ∨ beta ≤ 0 then .error .valueError
  else .ok (ω s.ix, { s with ix := s.ix + 1 })

/-- Embedding of random.random(): the next oracle value (a faithful oracle
yields values in the half-open unit interval at these positions). -/
def randomRandom (ω : ℕ → ℝ) (s : St) : ℝ × St :=
  (ω s.ix, { s with ix := s.ix + 1 })

/-- Embedding of Segment.__init__ from src/model.py: records order, parent
and creation time, then immediately samples the initial length
(grow_initial) from the initial-length gamma distribution plus offset.
Returns the new arena index. -/
noncomputable def newSegment (ω : ℕ → ℝ) (order : ℕ) (parent : Option ℕ) (t : ℤ)
    (s : St) : Except PyErr (ℕ × St) := do
  let p := s.tree.params
  let (x, s) ← gammavariate ω p.gamma_in p.beta_in s
  let sg : Seg := ⟨order, 1, parent, none, t, x + p.alpha_in, 0⟩
  .ok (s.tree.segs.length,
       { s with tree := { s.tree with segs := s.tree.segs ++ [sg] } })

/-- Embedding of Segment.branching_probability_normalization_constant:
sum 2^(-S * order) over the current terminal segments (an accumulator
loop in the source), divided by the current terminal count. -/
noncomputable def branching_probability_normalization_constant (tr : Tree) : ℝ :=
  (tr.terminal.foldl
      (fun acc j => acc + (2:ℝ) ^ (-(tr.params.S * ((tr.seg j).order : ℝ)))) 0)
    / (tr.terminal.length : ℝ)

/-- Embedding of Segment.branching_probability for the segment at arena
index i, reading the live tree state. -/
noncomputable def branching_probability (tr : Tree) (i : ℕ) : ℝ :=
  let Cinv := branching_probability_normalization_constant tr
  (2:ℝ) ^ (-(tr.params.S * ((tr.seg i).order : ℝ))) * tr.params.B / Cinv
    / (tr.params.N_be : ℝ) / ((tr.terminal.length : ℝ) ^ tr.params.E)

/-- Embedding of Segment.grow_sustained(t): samples an elongation rate from
the branch/elongate-phase gamma distribution plus offset and sets
elongated_len to rate * (t - created - 1). -/
noncomputable def grow_sustained (ω : ℕ → ℝ) (t : ℤ) (i : ℕ) (s : St) :
    Except PyErr St := do
  let p := s.tree.params
  let (g, s) ← gammavariate ω p.gamma_be p.beta_be s
  let rate := g + p.alpha_be
  .ok (s.setSeg i (fun sg =>
        { sg with elongated_len := rate * ((t - sg.created - 1 : ℤ) : ℝ) }))

/-- Embedding of Segment.grow_only(dt): samples an elongation rate from the
elongate-phase gamma distribution plus offset and adds rate * dt to
elongated_len. -/
noncomputable def grow_only (ω : ℕ → ℝ) (dt : ℝ) (i : ℕ) (s : St) :
    Except PyErr St := do
  let p := s.tree.params
  let (g, s) ← gammavariate ω p.gamma_e p.beta_e s
  let rate := g + p.alpha_e
  .ok (s.setSeg i (fun sg =>
        { sg with elongated_len := sg.elongated_len + rate * dt }))

/-- Embedding of Segment.update_degree: recompute this segment's degree
from its children (1 when childless) and recurse to the parent. The fuel
argument bounds the parent walk; every parent has a smaller arena index,
so fuel i+1 always suffices on a well-formed tree and the zero-fuel case
is unreachable. -/
def update_degree_fuel : ℕ → ℕ → Tree → Tree
  | 0, _, tr => tr
  | fuel + 1, i, tr =>
    let d : ℕ := match (tr.seg i).children with
      | none => 1
      | some (a, b) => (tr.seg a).degree + (tr.seg b).degree
    let tr2 : Tree := { tr with segs := tr.segs.set i { tr.seg i with degree := d } }
    match (tr.seg i).parent with
    | none => tr2
    | some p => update_degree_fuel fuel p tr2

/-- Segment.update_degree entry point for the segment at index i. -/
def update_degree (i : ℕ) (tr : Tree) : Tree := update_degree_fuel (i + 1) i tr

/-- Embedding of Segment.branch(t) for the segment at index i: asserts the
segment is childless, draws one uniform value and compares it with the
branching probability computed from the live tree (neither operand draws
further randomness, so the evaluation order of the comparison is
immaterial); on no branching only the draw counter and ghost log change;
on branching it samples the sustained elongation, creates the two child
segments, links them, propagates degrees, and moves the segment from the
terminal set (Python set.remove raises KeyError when absent) to the
intermediate set, appending both children to the terminal set. -/
noncomputable def branch (ω : ℕ → ℝ) (t : ℤ) (i : ℕ) (s : St) : Except PyErr St :=
  match (s.tree.seg i).children with
  | some _ => .error .assertionError
  | none =>
    let (r, s) := randomRandom ω s
    let p := branching_probability s.tree i
    let s := { s with log := s.log ++
      [⟨t, i, s.tree.terminal.length, branching_probability_normalization_constant s.tree⟩] }
    if r > p then .ok s
    else do
      let s ← grow_sustained ω t i s
      let ord := (s.tree.seg i).order
      let (c1, s) ← newSegment ω (ord + 1) (some i) t s
      let (c2, s) ← newSegment ω (ord + 1) (some i) t s
      let s := s.setSeg i (fun sg => { sg with children := some (c1, c2) })
      let s := { s with tree := update_degree i s.tree }
      if i ∈ s.tree.terminal then
        .ok { s with tree := { s.tree with
          terminal := (s.tree.terminal.erase i) ++ [c1, c2],
          intermediate := s.tree.intermediate ++ [i] } }
      else .error .keyError

/-- Derivation of a gamma-distribution scale parameter sd^2/mean exactly as
written in DendriticTree.__init__; Python raises ZeroDivisionError when
mean is 0 and performs no other validation. -/
noncomputable def deriveBeta (mean sd : ℝ) : Except PyErr ℝ :=
  if mean = 0 then .error .zeroDivisionError else .ok (sd ^ 2 / mean)

/-- Derivation of a gamma-distribution shape parameter (mean/sd)^2 exactly
as written in DendriticTree.__init__; Python raises ZeroDivisionError when
sd is 0 and performs no other validation. -/
noncomputable def deriveGamma (mean sd : ℝ) : Except PyErr ℝ :=
  if sd = 0 then .error .zeroDivisionError else .ok ((mean / sd) ^ 2)

/-- Embedding of DendriticTree.__init__: builds the parameter mapping with
the derived shape/scale values in the evaluation order of the source dict
literal (in, then be, then e; scale before shape), then creates the root
segment, which immediately samples its initial length, and puts it in the
terminal set. -/
noncomputable def mkDendriticTree (ω : ℕ → ℝ) (B E S : ℝ) (N_be : ℕ) (N_e : ℝ)
    (offset_in mean_in sd_in offset_be mean_be sd_be offset_e mean_e sd_e : ℝ) :
    Except PyErr St := do
  let beta_in ← deriveBeta mean_in sd_in
  let gamma_in ← deriveGamma mean_in sd_in
  let beta_be ← deriveBeta mean_be sd_be
  let gamma_be ← deriveGamma mean_be sd_be
  let beta_e ← deriveBeta mean_e sd_e
  let gamma_e ← deriveGamma mean_e sd_e
  let p : Params := ⟨B, E, S, N_be, N_e, offset_in, beta_in, gamma_in,
                     offset_be, beta_be, gamma_be, offset_e, beta_e, gamma_e⟩
  let s : St := ⟨⟨p, [], [], [], none⟩, 0, []⟩
  let (r, s) ← newSegment ω 0 none 0 s
  .ok { s with tree := { s.tree with terminal := [r], root := some r } }

/-- Embedding of DendriticTree.empty: resets the segment sets and the root
reference, leaving the parameters untouched (the arena keeps the now
unreferenced old storage). -/
def Tree.empty (tr : Tree) : Tree :=
  { tr with terminal := [], intermediate := [], root := none }

/-- One sweep of a branching+elongation time bin: attempt branch(t) on
every element of the frozen snapshot list, in order. -/
noncomputable def binSweep (ω : ℕ → ℝ) (t : ℤ) : List ℕ → St → Except PyErr St
  | [], s => .ok s
  | i :: rest, s => do binSweep ω t rest (← branch ω t i s)

/-- The branching+elongation phase of DendriticTree.grow: for each time
bin, take the frozenset snapshot of the current terminal set and sweep it
(the set read happens at the start of the bin, before any mutation). -/
noncomputable def growPhase1 (ω : ℕ → ℝ) : List ℕ → St → Except PyErr St
  | [], s => .ok s
  | i :: rest, s => do
    let s2 ← binSweep ω (i : ℤ) s.tree.terminal s
    growPhase1 ω rest s2

/-- The finish-up step of DendriticTree.grow: grow_sustained(N_be) on every
segment still terminal. -/
noncomputable def growPhase2 (ω : ℕ → ℝ) (t : ℤ) : List ℕ → St → Except PyErr St
  | [], s => .ok s
  | i :: rest, s => do growPhase2 ω t rest (← grow_sustained ω t i s)

/-- The elongation-only step of DendriticTree.grow: grow_only(N_e) on every
terminal segment. -/
noncomputable def growPhase3 (ω : ℕ → ℝ) (dt : ℝ) : List ℕ → St → Except PyErr St
  | [], s => .ok s
  | i :: rest, s => do growPhase3 ω dt rest (← grow_only ω dt i s)

/-- Embedding of DendriticTree.grow() with its default arguments (N_be and
N_e taken from the parameters, as at every repository call site). -/
noncomputable def grow (ω : ℕ → ℝ) (s : St) : Except PyErr St := do
  let nbe := s.tree.params.N_be
  let s ← growPhase1 ω (List.range nbe) s
  let s ← growPhase2 ω (nbe : ℤ) s.tree.terminal s
  let s ← growPhase3 ω s.tree.params.N_e s.tree.terminal s
  .ok s

/-- Embedding of the Segment.is_terminal property: Python evaluates
len(self.children) == 0, which raises TypeError when children is still
None (the segment never branched); when set, the children list always has
two elements, so the comparison yields false. -/
def is_terminal (sg : Seg) : Except PyErr Bool :=
  match sg.children with
  | none => .error .typeError
  | some _ => .ok false

/-- Embedding of the Segment.is_intermediate property
(len(self.children) == 2), raising TypeError when children is None. -/
def is_intermediate (sg : Seg) : Except PyErr Bool :=
  match sg.children with
  | none => .error .typeError
  | some _ => .ok true

/-- Embedding of the Segment.partition_asymmetry property for the segment
at index i: first evaluates is_intermediate (which raises on a childless
segment), then |r - s| / (r + s - 2) over the two children's degrees when
r + s > 2, and 0 otherwise. -/
noncomputable def partition_asymmetry (tr : Tree) (i : ℕ) : Except PyErr ℝ := do
  let sg := tr.seg i
  let it ← is_intermediate sg
  if it then
    match sg.children with
    | some (a, b) =>
      let r := ((tr.seg a).degree : ℝ)
      let s := ((tr.seg b).degree : ℝ)
      if r + s > 2 then .ok (|r - s| / (r + s - 2)) else .ok 0
    | none => .ok 0
  else .ok 0

/-- Embedding of the DendriticTree.total_length property: the sum of
total_len over the intermediate segments plus the sum over the terminal
segments. -/
def Tree.total_length (tr : Tree) : ℝ :=
  (tr.intermediate.map (fun i => (tr.seg i).total_len)).sum
    + (tr.terminal.map (fun i => (tr.seg i).total_len)).sum

/-- Embedding of the DendriticTree.degree property (the root segment's
degree; Python would raise on a rootless tree, modelled as 0 since no
claim evaluates it there). -/
def Tree.degree (tr : Tree) : ℕ :=
  match tr.root with
  | some r => (tr.seg r).degree
  | none => 0

/-! Morphology importer: embedding of build_dendrite_from_linesegments
from src/stats.py. -/

/-- A morphology line segment as handed to the importer by the external
parser: the Euclidean edge length to its parent and the child list. -/
inductive LineSeg where
  | node (len : ℝ) (children : List LineSeg)

/-- The number of leaf nodes of a (at most binary) line-segment tree. -/
def LineSeg.leafCt : LineSeg → ℕ
  | .node _ [] => 1
  | .node _ [c] => c.leafCt
  | .node _ [c0, c1] => c0.leafCt + c1.leafCt
  | .node _ _ => 0

/-- The sum of all edge lengths of a (at most binary) line-segment tree. -/
noncomputable def LineSeg.totalLen : LineSeg → ℝ
  | .node l [] => l
  | .node l [c] => l + c.totalLen
  | .node l [c0, c1] => l + c0.totalLen + c1.totalLen
  | .node l _ => l

/-- Well-formed importer input: every node has at most two children. -/
inductive LineSeg.Wf : LineSeg → Prop where
  | mk (l : ℝ) (cs : List LineSeg) : cs.length ≤ 2 →
      (∀ c ∈ cs, LineSeg.Wf c) → LineSeg.Wf (.node l cs)

/-- Embedding of the recursive trace inside build_dendrite_from_linesegments:
accumulates single-child chain lengths, creates one model Segment per leaf
or binary branch point (overwriting the sampled initial_len with the
accumulated chain length), registers it in the terminal or intermediate
set, and rejects wider branching with a structural error. -/
noncomputable def trace (ω : ℕ → ℝ) :
    LineSeg → Option ℕ → ℕ → ℝ → St → Except PyErr (ℕ × St)
  | .node len children, parentSeg, parentOrder, acc, s =>
    let length := acc + len
    match children with
    | [] => do
      let (i, s) ← newSegment ω (parentOrder + 1) parentSeg 0 s
      let s := s.setSeg i (fun sg => { sg with initial_len := length })
      let s := { s with tree :=
        { s.tree with terminal := s.tree.terminal ++ [i] } }
      .ok (i, s)
    | [c] => trace ω c parentSeg parentOrder length s
    | [c0, c1] => do
      let (i, s) ← newSegment ω (parentOrder + 1) parentSeg 0 s
      let s := s.setSeg i (fun sg => { sg with initial_len := length })
      let (a, s) ← trace ω c0 (some i) (s.tree.seg i).order 0 s
      let (b, s) ← trace ω c1 (some i) (s.tree.seg i).order 0 s
      let s := s.setSeg i (fun sg => { sg with children := some (a, b) })
      let s := { s with tree :=
        { s.tree with intermediate := s.tree.intermediate ++ [i] } }
      .ok (i, s)
    | _ => .error .structuralError

/-- The degree backfill after tracing: update_degree on every terminal
segment (the walks change only degrees, never the terminal set itself). -/
def backfill (tr : Tree) : Tree :=
  tr.terminal.foldl (fun t i => update_degree i t) tr

/-- Embedding of build_dendrite_from_linesegments: construct a default
DendriticTree, empty it, trace the line-segment tree, install the traced
root and backfill degrees from the terminals. -/
noncomputable def build_dendrite_from_linesegments (ω : ℕ → ℝ) (ls : LineSeg) :
    Except PyErr St := do
  let s ← mkDendriticTree ω 1 1 0 1 0 0 1 1 0 1 1 0 1 1
  let s := { s with tree := s.tree.empty }
  let (r, s) ← trace ω ls none 0 0 s
  let s := { s with tree := { s.tree with root := some r } }
  .ok { s with tree := backfill s.tree }

/-- Oracle for the all-branching run: zero at the positions consumed by
random.random (draw indices 1, 5 and 9 of the run below), one (a
legitimate positive gamma sample) everywhere else. -/
noncomputable def omega0 : ℕ → ℝ :=
  fun n => if n = 1 ∨ n = 5 ∨ n = 9 then 0 else 1

/-- Oracle returning one at every draw. -/
noncomputable def omega1 : ℕ → ℝ := fun _ => 1

/-- Parameter record with B = 1, E = 1, S = 0, two branching bins, no
elongation bins, and the default unit gamma inputs. -/
noncomputable def params1 : Params := ⟨1, 1, 0, 2, 0, 0, 1, 1, 0, 1, 1, 0, 1, 1⟩

/-- The state produced by DendriticTree construction with those inputs. -/
noncomputable def st1 : St :=
  ⟨⟨params1, [⟨0, 1, none, none, 0, 1, 0⟩], [0], [], some 0⟩, 1, []⟩

/-- State after the root's branch attempt in bin 0 of the omega0 run: the
probability 1/2 exceeds the zero draw, so the root branches; its sustained
elongation is rate 1 times (0 - 0 - 1) = -1. -/
noncomputable def stA : St :=
  ⟨⟨params1,
    [⟨0, 2, none, some (1, 2), 0, 1, -1⟩,
     ⟨1, 1, some 0, none, 0, 1, 0⟩,
     ⟨1, 1, some 0, none, 0, 1, 0⟩],
    [1, 2], [0], some 0⟩, 5, [⟨0, 0, 1, 1⟩]⟩

/-- State after the first child's branch attempt in bin 1: it sees the
live terminal count 2 and branches. -/
noncomputable def stB : St :=
  ⟨⟨params1,
    [⟨0, 3, none, some (1, 2), 0, 1, -1⟩,
     ⟨1, 2, some 0, some (3, 4), 0, 1, 0⟩,
     ⟨1, 1, some 0, none, 0, 1, 0⟩,
     ⟨2, 1, some 1, none, 1, 1, 0⟩,
     ⟨2, 1, some 1, none, 1, 1, 0⟩],
    [2, 3, 4], [0, 1], some 0⟩, 9,
   [⟨0, 0, 1, 1⟩, ⟨1, 1, 2, 1⟩]⟩

/-- State after the second child's branch attempt in the same bin 1: it
sees the live terminal count 3 mutated by its sibling. -/
noncomputable def stC : St :=
  ⟨⟨params1,
    [⟨0, 4, none, some (1, 2), 0, 1, -1⟩,
     ⟨1, 2, some 0, some (3, 4), 0, 1, 0⟩,
     ⟨1, 2, some 0, some (5, 6), 0, 1, 0⟩,
     ⟨2, 1, some 1, none, 1, 1, 0⟩,
     ⟨2, 1, some 1, none, 1, 1, 0⟩,
     ⟨2, 1, some 2, none, 1, 1, 0⟩,
     ⟨2, 1, some 2, none, 1, 1, 0⟩],
    [3, 4, 5, 6], [0, 1, 2], some 0⟩, 13,
   [⟨0, 0, 1, 1⟩, ⟨1, 1, 2, 1⟩, ⟨1, 2, 3, 1⟩]⟩

/-- State after the finish-up phase of the omega0 run (the sustained
rates multiply the zero bin difference, so only the draw counter moves). -/
noncomputable def stD : St :=
  ⟨⟨params1,
    [⟨0, 4, none, some (1, 2), 0, 1, -1⟩,
     ⟨1, 2, some 0, some (3, 4), 0, 1, 0⟩,
     ⟨1, 2, some 0, some (5, 6), 0, 1, 0⟩,
     ⟨2, 1, some 1, none, 1, 1, 0⟩,
     ⟨2, 1, some 1, none, 1, 1, 0⟩,
     ⟨2, 1, some 2, none, 1, 1, 0⟩,
     ⟨2, 1, some 2, none, 1, 1, 0⟩],
    [3, 4, 5, 6], [0, 1, 2], some 0⟩, 17,
   [⟨0, 0, 1, 1⟩, ⟨1, 1, 2, 1⟩, ⟨1, 2, 3, 1⟩]⟩

/-- The final state of the omega0 run (the elongation-only increment is
rate times N_e = 0, so again only the draw counter moves). -/
noncomputable def stE : St :=
  ⟨⟨params1,
    [⟨0, 4, none, some (1, 2), 0, 1, -1⟩,
     ⟨1, 2, some 0, some (3, 4), 0, 1, 0⟩,
     ⟨1, 2, some 0, some (5, 6), 0, 1, 0⟩,
     ⟨2, 1, some 1, none, 1, 1, 0⟩,
     ⟨2, 1, some 1, none, 1, 1, 0⟩,
     ⟨2, 1, some 2, none, 1, 1, 0⟩,
     ⟨2, 1, some 2, none, 1, 1, 0⟩],
    [3, 4, 5, 6], [0, 1, 2], some 0⟩, 21,
   [⟨0, 0, 1, 1⟩, ⟨1, 1, 2, 1⟩, ⟨1, 2, 3, 1⟩]⟩

/-- The per-key combining step of the map_with_stats run loop, specialized
to one key k: how the accumulated optional value for k evolves over one
run's measures. -/
def stepK (fn : α → Dict κ) (k : κ) (o : Option PyVal) (a : α) : Option PyVal :=
  match o, fn a k with
  | some x, some y => some (add_listified x y)
  | some x, none => some x
  | none, some y => some y
  | none, none => none

/-- The list values the runs of argset contribute for key k, in run order. -/
def contribLists (fn : α → Dict κ) (argset : List α) (k : κ) : List (List ℝ) :=
  argset.filterMap (fun a =>
    match fn a k with
    | some (.list l) => some l
    | _ => none)

/-- Two-run probe mapping: run 0 reports the list [1, 2] and run 1 the
list [3] under key 0. -/
noncomputable def fn2 : ℕ → Dict ℕ := fun a k =>
  if k = 0 then (if a = 0 then some (.list [1, 2]) else some (.list [3])) else none

/-- Probe mapping where only the second argument set (20) contributes the
key 1, with a scalar value whose statistics computation fails. -/
noncomputable def fn4 : ℕ → Dict ℕ := fun a k =>
  if a = 10 ∧ k = 0 then some (.list [1, 2])
  else if a = 20 ∧ k = 1 then some (.num 3)
  else none

/-- The parameter record derived from B = E = 1, S = 0, N_be = 1, N_e = 0
and unit means/sds with zero offsets (also reached with sd_in = -1, since
the derivations square the sd). -/
noncomputable def paramsD : Params := ⟨1, 1, 0, 1, 0, 0, 1, 1, 0, 1, 1, 0, 1, 1⟩

/-- The state produced by DendriticTree construction under the omega1
oracle when the derived parameters come out as paramsD. -/
noncomputable def stNeg : St :=
  ⟨⟨paramsD, [⟨0, 1, none, none, 0, 1, 0⟩], [0], [], some 0⟩, 1, []⟩

/-- The state after grow_sustained(5) on the root of st1 under the omega1
oracle: elongation rate 1 times (5 - 0 - 1). -/
noncomputable def st1gs : St :=
  ⟨⟨params1, [⟨0, 1, none, none, 0, 1, 4⟩], [0], [], some 0⟩, 2, []⟩

/-- A small morphology input: a root edge of length 5 followed by a
single-child chain edge of length 2 into a branch point with two leaf
edges of lengths 3 and 4. -/
noncomputable def ls9 : LineSeg := .node 5 [.node 2 [.node 3 [], .node 4 []]]

/-- The state built by the importer from ls9 under the omega1 oracle: the
stale constructor root at index 0, the branch node at index 1 carrying the
accumulated chain length 5 + 2, and the two leaves. -/
noncomputable def stF9 : St :=
  ⟨⟨paramsD,
    [⟨0, 1, none, none, 0, 1, 0⟩,
     ⟨1, 2, none, some (2, 3), 0, 7, 0⟩,
     ⟨2, 1, some 1, none, 0, 3, 0⟩,
     ⟨2, 1, some 1, none, 0, 4, 0⟩],
    [2, 3], [1], some 1⟩, 4, []⟩

/-! Arena access helpers and structural well-formedness. -/

theorem getD_set_self {α : Type} [Inhabited α] (l : List α) (i : ℕ) (v : α)
    (h : i < l.length) : (l.set i v).getD i default = v := by
  simp [List.getD, List.get?_eq_getElem?, List.getElem?_set_self', h]

theorem getD_set_ne {α : Type} [Inhabited α] (l : List α) {i j : ℕ} (v : α)
    (h : j ≠ i) : (l.set i v).getD j default = l.getD j default := by
  simp [List.getD, List.get?_eq_getElem?, List.getElem?_set_ne (by omega : i ≠ j)]

theorem getD_append_left {α : Type} [Inhabited α] (l1 l2 : List α) {i : ℕ}
    (h : i < l1.length) : (l1 ++ l2).getD i default = l1.getD i default := by
  simp [List.getD, List.get?_eq_getElem?, List.getElem?_append_left h]

theorem getD_append_right {α : Type} [Inhabited α] (l1 l2 : List α) {i : ℕ}
    (h : l1.length ≤ i) :
    (l1 ++ l2).getD i default = l2.getD (i - l1.length) default := by
  simp [List.getD, List.get?_eq_getElem?, List.getElem?_append_right h]

theorem getD_out {α : Type} [Inhabited α] (l : List α) {i : ℕ}
    (h : l.length ≤ i) : l.getD i default = default := by
  simp [List.getD, List.get?_eq_getElem?, List.getElem?_eq_none h]

/-- Structural well-formedness of a segment arena: child links point
forward and in range, parent links point backward, and children know
their parent. Out-of-range lookups yield the childless, parentless
default segment, so the fields quantify over all indices. -/
structure Wf (tr : Tree) : Prop where
  children_lt : ∀ i a b, (tr.seg i).children = some (a, b) →
    i < a ∧ i < b ∧ a < tr.segs.length ∧ b < tr.segs.length ∧ a ≠ b
  parent_lt : ∀ i p, (tr.seg i).parent = some p → p < i
  children_parent : ∀ i a b, (tr.seg i).children = some (a, b) →
    (tr.seg a).parent = some i ∧ (tr.seg b).parent = some i

/-- The leaf indices of the arena subtree rooted at i, with fuel-bounded
recursion; children have strictly larger indices, so fuel
segs.length - i suffices for in-range i in a well-formed arena. -/
def leavesFuel (tr : Tree) : ℕ → ℕ → List ℕ
  | 0, _ => []
  | fuel + 1, i =>
    match (tr.seg i).children with
    | none => [i]
    | some (a, b) => leavesFuel tr fuel a ++ leavesFuel tr fuel b

/-- The leaf indices of the subtree rooted at i (the terminal descendants
of segment i; i itself when childless). -/
def leaves (tr : Tree) (i : ℕ) : List ℕ := leavesFuel tr (tr.segs.length - i) i

theorem leavesFuel_congr {tr : Tree} (hwf : Wf tr) :
    ∀ f1 f2 i, i < tr.segs.length → tr.segs.length - i ≤ f1 →
      tr.segs.length - i ≤ f2 → leavesFuel tr f1 i = leavesFuel tr f2 i := by
  intro f1
  induction f1 with
  | zero => intro f2 i hi h1 h2; omega
  | succ f ih =>
    intro f2 i hi h1 h2
    cases f2 with
    | zero => omega
    | succ g =>
      show leavesFuel tr (f + 1) i = leavesFuel tr (g + 1) i
      simp only [leavesFuel]
      cases hc : (tr.seg i).children with
      | none => rfl
      | some ab =>
        obtain ⟨a, b⟩ := ab
        obtain ⟨hia, hib, ha, hb, _⟩ := hwf.children_lt i a b hc
        dsimp only
        rw [ih g a ha (by omega) (by omega), ih g b hb (by omega) (by omega)]

theorem leaves_unfold {tr : Tree} (hwf : Wf tr) {i : ℕ} (hi : i < tr.segs.length) :
    leaves tr i = match (tr.seg i).children with
      | none => [i]
      | some (a, b) => leaves tr a ++ leaves tr b := by
  have h1 : tr.segs.length - i ≤ (tr.segs.length - i - 1) + 1 := by omega
  rw [leaves, leavesFuel_congr hwf _ ((tr.segs.length - i - 1) + 1) i hi le_rfl h1]
  simp only [leavesFuel]
  cases hc : (tr.seg i).children with
  | none => rfl
  | some ab =>
    obtain ⟨a, b⟩ := ab
    obtain ⟨hia, hib, ha, hb, _⟩ := hwf.children_lt i a b hc
    dsimp only
    rw [leavesFuel_congr hwf (tr.segs.length - i - 1) (tr.segs.length - a) a ha
          (by omega) le_rfl,
        leavesFuel_congr hwf (tr.segs.length - i - 1) (tr.segs.length - b) b hb
          (by omega) le_rfl]
    rfl

theorem leaves_none {tr : Tree} (hwf : Wf tr) {i : ℕ} (hi : i < tr.segs.length)
    (hc : (tr.seg i).children = none) : leaves tr i = [i] := by
  rw [leaves_unfold hwf hi, hc]

theorem leaves_children {tr : Tree} (hwf : Wf tr) {i a b : ℕ}
    (hi : i < tr.segs.length) (hc : (tr.seg i).children = some (a, b)) :
    leaves tr i = leaves tr a ++ leaves tr b := by
  rw [leaves_unfold hwf hi, hc]

/-- Members of a leaf list are childless. -/
theorem leaves_childless {tr : Tree} (hwf : Wf tr) :
    ∀ fuel i, i < tr.segs.length → tr.segs.length - i ≤ fuel →
      ∀ x ∈ leavesFuel tr fuel i, (tr.seg x).children = none ∧ x < tr.segs.length := by
  intro fuel
  induction fuel with
  | zero => intro i hi h1; omega
  | succ f ih =>
    intro i hi h1 x hx
    simp only [leavesFuel] at hx
    cases hc : (tr.seg i).children with
    | none =>
      rw [hc] at hx
      simp at hx
      subst hx
      exact ⟨hc, hi⟩
    | some ab =>
      obtain ⟨a, b⟩ := ab
      obtain ⟨hia, hib, ha, hb, _⟩ := hwf.children_lt i a b hc
      rw [hc] at hx
      rcases List.mem_append.mp hx with h | h
      · exact ih a ha (by omega) x h
      · exact ih b hb (by omega) x h

theorem leaves_childless' {tr : Tree} (hwf : Wf tr) {i : ℕ}
    (hi : i < tr.segs.length) :
    ∀ x ∈ leaves tr i, (tr.seg x).children = none ∧ x < tr.segs.length :=
  leaves_childless hwf _ i hi le_rfl

/-- The parent chain from i up to the last reachable ancestor, with fuel;
parents have strictly smaller indices, so fuel i suffices. -/
def chainFuel (tr : Tree) : ℕ → ℕ → List ℕ
  | 0, i => [i]
  | fuel + 1, i =>
    i :: (match (tr.seg i).parent with
          | none => []
          | some p => chainFuel tr fuel p)

/-- The parent chain of i: i, its parent, and so on. -/
def chain (tr : Tree) (i : ℕ) : List ℕ := chainFuel tr i i

theorem chainFuel_congr {tr : Tree} (hwf : Wf tr) :
    ∀ f1 f2 i, i ≤ f1 → i ≤ f2 → chainFuel tr f1 i = chainFuel tr f2 i := by
  intro f1
  induction f1 with
  | zero =>
    intro f2 i h1 h2
    have hi0 : i = 0 := by omega
    subst hi0
    cases f2 with
    | zero => rfl
    | succ g =>
      simp only [chainFuel]
      cases hp : (tr.seg 0).parent with
      | none => rfl
      | some p => exact absurd (hwf.parent_lt 0 p hp) (by omega)
  | succ f ih =>
    intro f2 i h1 h2
    cases f2 with
    | zero =>
      have hi0 : i = 0 := by omega
      subst hi0
      simp only [chainFuel]
      cases hp : (tr.seg 0).parent with
      | none => rfl
      | some p => exact absurd (hwf.parent_lt 0 p hp) (by omega)
    | succ g =>
      simp only [chainFuel]
      cases hp : (tr.seg i).parent with
      | none => rfl
      | some p =>
        have hpi := hwf.parent_lt i p hp
        dsimp only
        rw [ih g p (by omega) (by omega)]

theorem chain_unfold {tr : Tree} (hwf : Wf tr) (i : ℕ) :
    chain tr i = i :: (match (tr.seg i).parent with
      | none => []
      | some p => chain tr p) := by
  rw [chain, chainFuel_congr hwf i (i + 1) i (by omega) (by omega)]
  simp only [chainFuel]
  cases hp : (tr.seg i).parent with
  | none => rfl
  | some p =>
    have hpi := hwf.parent_lt i p hp
    dsimp only
    rw [chainFuel_congr hwf i p p (by omega) le_rfl]
    rfl

theorem chain_self {tr : Tree} (hwf : Wf tr) (i : ℕ) : i ∈ chain tr i := by
  rw [chain_unfold hwf i]; exact List.mem_cons_self i _

theorem chain_parent {tr : Tree} (hwf : Wf tr) {i p : ℕ}
    (hp : (tr.seg i).parent = some p) : chain tr i = i :: chain tr p := by
  rw [chain_unfold hwf i, hp]

theorem chain_none {tr : Tree} (hwf : Wf tr) {i : ℕ}
    (hp : (tr.seg i).parent = none) : chain tr i = [i] := by
  rw [chain_unfold hwf i, hp]

theorem chain_mem_le {tr : Tree} (hwf : Wf tr) :
    ∀ i j, j ∈ chain tr i → j ≤ i := by
  intro i
  induction i using Nat.strong_induction_on with
  | _ i ih =>
    intro j hj
    rw [chain_unfold hwf i] at hj
    rcases List.mem_cons.mp hj with h | h
    · omega
    · cases hp : (tr.seg i).parent with
      | none => rw [hp] at h; simp at h
      | some p =>
        rw [hp] at h
        have hpi := hwf.parent_lt i p hp
        have := ih p hpi j h
        omega

/-- The chain of x is closed under taking parents. -/
theorem chain_parent_mem {tr : Tree} (hwf : Wf tr) :
    ∀ x a p, a ∈ chain tr x → (tr.seg a).parent = some p → p ∈ chain tr x := by
  intro x
  induction x using Nat.strong_induction_on with
  | _ x ih =>
    intro a p ha hp
    rw [chain_unfold hwf x] at ha
    rcases List.mem_cons.mp ha with h | h
    · subst h
      rw [chain_parent hwf hp]
      exact List.mem_cons_of_mem _ (chain_self hwf p)
    · cases hq : (tr.seg x).parent with
      | none => rw [hq] at h; simp at h
      | some q =>
        rw [hq] at h
        have hqx := hwf.parent_lt x q hq
        have := ih q hqx a p h hp
        rw [chain_parent hwf hq]
        exact List.mem_cons_of_mem _ this

/-- A subtree containing x as a leaf lies on x's parent chain. -/
theorem leaves_mem_chain {tr : Tree} (hwf : Wf tr) :
    ∀ fuel i, i < tr.segs.length → tr.segs.length - i ≤ fuel →
      ∀ x ∈ leavesFuel tr fuel i, i ∈ chain tr x := by
  intro fuel
  induction fuel with
  | zero => intro i hi h1; omega
  | succ f ih =>
    intro i hi h1 x hx
    simp only [leavesFuel] at hx
    cases hc : (tr.seg i).children with
    | none =>
      rw [hc] at hx
      simp at hx
      subst hx
      exact chain_self hwf x
    | some ab =>
      obtain ⟨a, b⟩ := ab
      obtain ⟨hia, hib, ha, hb, _⟩ := hwf.children_lt i a b hc
      have hcp := hwf.children_parent i a b hc
      rw [hc] at hx
      rcases List.mem_append.mp hx with h | h
      · exact chain_parent_mem hwf x a i (ih a ha (by omega) x h) hcp.1
      · exact chain_parent_mem hwf x b i (ih b hb (by omega) x h) hcp.2

theorem leaves_mem_chain' {tr : Tree} (hwf : Wf tr) {i : ℕ}
    (hi : i < tr.segs.length) : ∀ x ∈ leaves tr i, i ∈ chain tr x :=
  leaves_mem_chain hwf _ i hi le_rfl

/-- Correct degree bookkeeping at index j: the stored degree equals the
number of terminal descendants. -/
def degOk (tr : Tree) (j : ℕ) : Prop :=
  (tr.seg j).degree = (leaves tr j).length

/-! Shape transport: update_degree only rewrites degrees, and the degree
machinery (leaves, chains, well-formedness) only reads links, so it is
stable under degree updates. -/

/-- The one-index degree write performed by each update_degree step. -/
def setDeg (tr : Tree) (i d : ℕ) : Tree :=
  { tr with segs := tr.segs.set i { tr.seg i with degree := d } }

theorem setDeg_seg (tr : Tree) (i d j : ℕ) :
    (setDeg tr i d).seg j =
      if j = i ∧ i < tr.segs.length then { tr.seg i with degree := d }
      else tr.seg j := by
  by_cases hji : j = i
  · subst hji
    by_cases hi : j < tr.segs.length
    · simp [setDeg, Tree.seg, hi, getD_set_self]
    · simp only [setDeg, Tree.seg]
      rw [List.set_eq_of_length_le (by omega)]
      simp [hi]
  · simp only [setDeg, Tree.seg]
    rw [getD_set_ne _ _ hji]
    simp [hji]

theorem setDeg_len (tr : Tree) (i d : ℕ) :
    (setDeg tr i d).segs.length = tr.segs.length := by
  simp [setDeg]

theorem update_degree_fuel_eqn (fuel i : ℕ) (tr : Tree) :
    update_degree_fuel (fuel + 1) i tr =
      match (tr.seg i).parent with
      | none => setDeg tr i (match (tr.seg i).children with
          | none => 1
          | some (a, b) => (tr.seg a).degree + (tr.seg b).degree)
      | some p => update_degree_fuel fuel p (setDeg tr i
          (match (tr.seg i).children with
          | none => 1
          | some (a, b) => (tr.seg a).degree + (tr.seg b).degree)) := by
  rfl

theorem update_degree_fuel_shape : ∀ (fuel i : ℕ) (tr : Tree),
    (update_degree_fuel fuel i tr).segs.length = tr.segs.length ∧
    (update_degree_fuel fuel i tr).params = tr.params ∧
    (update_degree_fuel fuel i tr).terminal = tr.terminal ∧
    (update_degree_fuel fuel i tr).intermediate = tr.intermediate ∧
    (update_degree_fuel fuel i tr).root = tr.root ∧
    ∀ j, ((update_degree_fuel fuel i tr).seg j).children = (tr.seg j).children ∧
         ((update_degree_fuel fuel i tr).seg j).parent = (tr.seg j).parent ∧
         ((update_degree_fuel fuel i tr).seg j).order = (tr.seg j).order ∧
         ((update_degree_fuel fuel i tr).seg j).created = (tr.seg j).created ∧
         ((update_degree_fuel fuel i tr).seg j).initial_len = (tr.seg j).initial_len ∧
         ((update_degree_fuel fuel i tr).seg j).elongated_len = (tr.seg j).elongated_len
  := by
  intro fuel
  induction fuel with
  | zero => intro i tr; simp [update_degree_fuel]
  | succ f ih =>
    intro i tr
    rw [update_degree_fuel_eqn]
    have hset : ∀ d j, ((setDeg tr i d).seg j).children = (tr.seg j).children ∧
        ((setDeg tr i d).seg j).parent = (tr.seg j).parent ∧
        ((setDeg tr i d).seg j).order = (tr.seg j).order ∧
        ((setDeg tr i d).seg j).created = (tr.seg j).created ∧
        ((setDeg tr i d).seg j).initial_len = (tr.seg j).initial_len ∧
        ((setDeg tr i d).seg j).elongated_len = (tr.seg j).elongated_len := by
      intro d j
      rw [setDeg_seg]
      by_cases h : j = i ∧ i < tr.segs.length
      · rw [if_pos h]
        obtain ⟨h1, h2⟩ := h
        subst h1
        exact ⟨rfl, rfl, rfl, rfl, rfl, rfl⟩
      · rw [if_neg h]
        exact ⟨rfl, rfl, rfl, rfl, rfl, rfl⟩
    cases hp : (tr.seg i).parent with
    | none =>
      refine ⟨setDeg_len tr i _, rfl, rfl, rfl, rfl, hset _⟩
    | some p =>
      obtain ⟨l1, p1, t1, i1, r1, s1⟩ := ih p (setDeg tr i
        (match (tr.seg i).children with
         | none => 1
         | some (a, b) => (tr.seg a).degree + (tr.seg b).degree))
      refine ⟨by rw [l1, setDeg_len], by rw [p1]; rfl, by rw [t1]; rfl,
              by rw [i1]; rfl, by rw [r1]; rfl, ?_⟩
      intro j
      obtain ⟨c2, p2, o2, cr2, il2, el2⟩ := s1 j
      obtain ⟨c3, p3, o3, cr3, il3, el3⟩ := hset _ j
      exact ⟨c2.trans c3, p2.trans p3, o2.trans o3, cr2.trans cr3,
             il2.trans il3, el2.trans el3⟩

/-- Well-formedness depends only on lengths and links. -/
theorem wf_shape {tr tr2 : Tree} (hlen : tr2.segs.length = tr.segs.length)
    (hch : ∀ j, (tr2.seg j).children = (tr.seg j).children)
    (hpar : ∀ j, (tr2.seg j).parent = (tr.seg j).parent)
    (hwf : Wf tr) : Wf tr2 := by
  constructor
  · intro i a b hc
    rw [hch] at hc
    rw [hlen]
    exact hwf.children_lt i a b hc
  · intro i p hp
    rw [hpar] at hp
    exact hwf.parent_lt i p hp
  · intro i a b hc
    rw [hch] at hc
    rw [hpar, hpar]
    exact hwf.children_parent i a b hc

theorem leavesFuel_shape {tr tr2 : Tree}
    (hch : ∀ j, (tr2.seg j).children = (tr.seg j).children) :
    ∀ fuel i, leavesFuel tr2 fuel i = leavesFuel tr fuel i := by
  intro fuel
  induction fuel with
  | zero => intro i; rfl
  | succ f ih =>
    intro i
    simp only [leavesFuel, hch]
    cases (tr.seg i).children with
    | none => rfl
    | some ab => obtain ⟨a, b⟩ := ab; dsimp only; rw [ih, ih]

theorem leaves_shape {tr tr2 : Tree} (hlen : tr2.segs.length = tr.segs.length)
    (hch : ∀ j, (tr2.seg j).children = (tr.seg j).children) :
    ∀ i, leaves tr2 i = leaves tr i := by
  intro i
  rw [leaves, leaves, hlen, leavesFuel_shape hch]

theorem chainFuel_shape {tr tr2 : Tree}
    (hpar : ∀ j, (tr2.seg j).parent = (tr.seg j).parent) :
    ∀ fuel i, chainFuel tr2 fuel i = chainFuel tr fuel i := by
  intro fuel
  induction fuel with
  | zero => intro i; rfl
  | succ f ih =>
    intro i
    simp only [chainFuel, hpar]
    cases (tr.seg i).parent with
    | none => rfl
    | some p => dsimp only; rw [ih]

theorem chain_shape {tr tr2 : Tree}
    (hpar : ∀ j, (tr2.seg j).parent = (tr.seg j).parent) :
    ∀ i, chain tr2 i = chain tr i := by
  intro i
  rw [chain, chain, chainFuel_shape hpar]

/-- Central correctness lemma for the update_degree parent walk. P selects
the segments whose degree is being re-established; it must be inherited by
children. If every P-segment off the walk already has a correct degree,
then after the walk every P-segment has a correct degree. -/
theorem update_degree_fuel_correct {P : ℕ → Prop} :
    ∀ (fuel : ℕ) (tr : Tree) (x : ℕ), Wf tr → x < tr.segs.length → x < fuel →
      (∀ i a b, (tr.seg i).children = some (a, b) → P i → P a ∧ P b) →
      (∀ i, i < tr.segs.length → i ∉ chain tr x → P i → degOk tr i) →
      ∀ j, j < tr.segs.length → P j → degOk (update_degree_fuel fuel x tr) j := by
  intro fuel
  induction fuel with
  | zero => intro tr x hwf hx hfx; omega
  | succ f ih =>
    intro tr x hwf hx hfx Pher Hoff
    set d : ℕ := (match (tr.seg x).children with
      | none => 1
      | some (a, b) => (tr.seg a).degree + (tr.seg b).degree) with hd
    have hsetseg := fun j => setDeg_seg tr x d j
    have hlen2 : (setDeg tr x d).segs.length = tr.segs.length := setDeg_len tr x d
    have hch2 : ∀ j, ((setDeg tr x d).seg j).children = (tr.seg j).children := by
      intro j
      rw [hsetseg j]
      by_cases h : j = x ∧ x < tr.segs.length
      · rw [if_pos h]
        obtain ⟨h1, h2⟩ := h
        subst h1
        rfl
      · rw [if_neg h]
    have hpar2 : ∀ j, ((setDeg tr x d).seg j).parent = (tr.seg j).parent := by
      intro j
      rw [hsetseg j]
      by_cases h : j = x ∧ x < tr.segs.length
      · rw [if_pos h]
        obtain ⟨h1, h2⟩ := h
        subst h1
        rfl
      · rw [if_neg h]
    have hwf2 : Wf (setDeg tr x d) := wf_shape hlen2 hch2 hpar2 hwf
    have hleaves2 : ∀ i, leaves (setDeg tr x d) i = leaves tr i :=
      leaves_shape hlen2 hch2
    have hchain2 : ∀ i, chain (setDeg tr x d) i = chain tr i := chain_shape hpar2
    -- the freshly recomputed degree at x is correct whenever P x holds
    have factx : P x → degOk (setDeg tr x d) x := by
      intro hPx
      have hxseg : (setDeg tr x d).seg x = { tr.seg x with degree := d } := by
        rw [hsetseg x, if_pos ⟨rfl, hx⟩]
      simp only [degOk, hxseg, hleaves2]
      show d = (leaves tr x).length
      cases hc : (tr.seg x).children with
      | none =>
        rw [leaves_none hwf hx hc, hd, hc]
        rfl
      | some ab =>
        obtain ⟨a, b⟩ := ab
        obtain ⟨hxa, hxb, ha, hb, _⟩ := hwf.children_lt x a b hc
        obtain ⟨hPa, hPb⟩ := Pher x a b hc hPx
        have hna : a ∉ chain tr x := fun hmem => by
          have := chain_mem_le hwf x a hmem; omega
        have hnb : b ∉ chain tr x := fun hmem => by
          have := chain_mem_le hwf x b hmem; omega
        have hdega : (tr.seg a).degree = (leaves tr a).length := Hoff a ha hna hPa
        have hdegb : (tr.seg b).degree = (leaves tr b).length := Hoff b hb hnb hPb
        rw [leaves_children hwf hx hc, hd, hc]
        dsimp only
        rw [hdega, hdegb, List.length_append]
    -- degrees off x are untouched by the write
    have facto : ∀ j, j < tr.segs.length → j ≠ x → j ∉ chain tr x → P j →
        degOk (setDeg tr x d) j := by
      intro j hj hjx hjc hPj
      have hjseg : (setDeg tr x d).seg j = tr.seg j := by
        rw [hsetseg j, if_neg (by simp [hjx])]
      simp only [degOk, hjseg, hleaves2]
      exact Hoff j hj hjc hPj
    rw [update_degree_fuel_eqn, ← hd]
    cases hp : (tr.seg x).parent with
    | none =>
      intro j hj hPj
      by_cases hjx : j = x
      · subst hjx; exact factx hPj
      · refine facto j hj hjx ?_ hPj
        rw [chain_none hwf hp]
        simp [hjx]
    | some p =>
      have hpx := hwf.parent_lt x p hp
      have hchx : chain tr x = x :: chain tr p := chain_parent hwf hp
      have IH := ih (setDeg tr x d) p hwf2 (by omega) (by omega)
        (by
          intro i a b hc hPi
          rw [hch2] at hc
          exact Pher i a b hc hPi)
        (by
          intro i hi hic hPi
          rw [hlen2] at hi
          rw [hchain2] at hic
          by_cases hix : i = x
          · subst hix; exact factx hPi
          · refine facto i hi hix ?_ hPi
            rw [hchx]
            simp only [List.mem_cons]
            push_neg
            exact ⟨hix, hic⟩)
      intro j hj hPj
      have := IH j (by rw [hlen2]; exact hj) hPj
      exact this

/-- Walk-correctness for update_degree itself (fuel i + 1 suffices because
parent indices strictly decrease). -/
theorem update_degree_correct {P : ℕ → Prop} {tr : Tree} {x : ℕ}
    (hwf : Wf tr) (hx : x < tr.segs.length)
    (Pher : ∀ i a b, (tr.seg i).children = some (a, b) → P i → P a ∧ P b)
    (Hoff : ∀ i, i < tr.segs.length → i ∉ chain tr x → P i → degOk tr i) :
    ∀ j, j < tr.segs.length → P j → degOk (update_degree x tr) j :=
  update_degree_fuel_correct (x + 1) tr x hwf hx (by omega) Pher Hoff

/-! The growth invariant carried across DendriticTree operations. -/

/-- Invariant of a growing DendriticTree: well-formed links, consistent
terminal/intermediate bookkeeping, correct degrees, and a root whose
subtree leaves are exactly the terminal set (up to set order). -/
structure Inv (tr : Tree) : Prop where
  wf : Wf tr
  term_lt : ∀ i ∈ tr.terminal, i < tr.segs.length
  int_lt : ∀ i ∈ tr.intermediate, i < tr.segs.length
  term_nodup : tr.terminal.Nodup
  int_nodup : tr.intermediate.Nodup
  disj : ∀ i ∈ tr.terminal, i ∉ tr.intermediate
  term_childless : ∀ i ∈ tr.terminal, (tr.seg i).children = none
  int_children : ∀ i ∈ tr.intermediate, ∃ a b, (tr.seg i).children = some (a, b)
  deg_ok : ∀ i, i < tr.segs.length → degOk tr i
  count : tr.intermediate.length + 1 = tr.terminal.length
  root_def : ∃ r, tr.root = some r ∧ r < tr.segs.length ∧
    (leaves tr r).Perm tr.terminal

/-- Invariant transport along a state change that preserves segment count,
links, degrees and the set lists (e.g. pure length updates). -/
theorem inv_shape {tr tr2 : Tree} (hlen : tr2.segs.length = tr.segs.length)
    (hch : ∀ j, (tr2.seg j).children = (tr.seg j).children)
    (hpar : ∀ j, (tr2.seg j).parent = (tr.seg j).parent)
    (hdeg : ∀ j, (tr2.seg j).degree = (tr.seg j).degree)
    (hterm : tr2.terminal = tr.terminal)
    (hint : tr2.intermediate = tr.intermediate)
    (hroot : tr2.root = tr.root) (h : Inv tr) : Inv tr2 := by
  have hleaves : ∀ i, leaves tr2 i = leaves tr i := leaves_shape hlen hch
  refine ⟨wf_shape hlen hch hpar h.wf, ?_, ?_, ?_, ?_, ?_, ?_, ?_, ?_, ?_, ?_⟩
  · intro i hi; rw [hterm] at hi; rw [hlen]; exact h.term_lt i hi
  · intro i hi; rw [hint] at hi; rw [hlen]; exact h.int_lt i hi
  · rw [hterm]; exact h.term_nodup
  · rw [hint]; exact h.int_nodup
  · intro i hi; rw [hterm] at hi; rw [hint]; exact h.disj i hi
  · intro i hi; rw [hterm] at hi; rw [hch]; exact h.term_childless i hi
  · intro i hi; rw [hint] at hi; rw [hch]; exact h.int_children i hi
  · intro i hi
    rw [hlen] at hi
    simp only [degOk, hdeg, hleaves]
    exact h.deg_ok i hi
  · rw [hterm, hint]; exact h.count
  · obtain ⟨r, hr, hrlt, hperm⟩ := h.root_def
    exact ⟨r, by rw [hroot, hr], by rw [hlen]; exact hrlt,
           by rw [hleaves, hterm]; exact hperm⟩

/-- Inverting a successful Except bind. -/
theorem bind_ok {ε α β : Type} {e : Except ε α} {f : α → Except ε β} {v : β}
    (h : e >>= f = .ok v) : ∃ a, e = .ok a ∧ f a = .ok v := by
  cases e with
  | error err =>
    exfalso
    simp only [Bind.bind, Except.bind] at h
    exact Except.noConfusion h
  | ok a =>
    refine ⟨a, rfl, ?_⟩
    simpa only [Bind.bind, Except.bind] using h

/-- Chains agree between two arenas whose parent links agree up to i. -/
theorem chain_agree {tr tr2 : Tree} (hwf : Wf tr) (hwf2 : Wf tr2) :
    ∀ i, (∀ k, k ≤ i → (tr2.seg k).parent = (tr.seg k).parent) →
      chain tr2 i = chain tr i := by
  intro i
  induction i using Nat.strong_induction_on with
  | _ i ih =>
    intro hag
    rw [chain_unfold hwf2 i, chain_unfold hwf i, hag i le_rfl]
    cases hp : (tr.seg i).parent with
    | none => rfl
    | some p =>
      have hpi := hwf.parent_lt i p hp
      dsimp only
      rw [ih p hpi (fun k hk => hag k (by omega))]

/-- Substituting i by two fresh leaves acts as the identity on a list not
containing i. -/
theorem flatMap_graft_id {i c1 c2 : ℕ} :
    ∀ l : List ℕ, i ∉ l →
      l.flatMap (fun y => if y = i then [c1, c2] else [y]) = l := by
  intro l
  induction l with
  | nil => intro; rfl
  | cons a l ih =>
    intro hm
    rw [List.flatMap_cons, if_neg (by intro he; exact hm (he ▸ List.mem_cons_self a l)),
        ih (fun hx => hm (List.mem_cons_of_mem a hx))]
    rfl

/-- Length of the leaf substitution: one extra entry per occurrence of i. -/
theorem length_flatMap_graft {i c1 c2 : ℕ} :
    ∀ l : List ℕ,
      (l.flatMap (fun y => if y = i then [c1, c2] else [y])).length
        = l.length + l.count i := by
  intro l
  induction l with
  | nil => rfl
  | cons a l ih =>
    rw [List.flatMap_cons, List.length_append, ih]
    by_cases ha : a = i
    · subst ha
      simp [List.count_cons]
      omega
    · rw [if_neg ha]
      simp [List.count_cons, ha]
      omega

/-- Grafting two fresh leaves c1, c2 under the previously childless segment
i rewrites every old subtree's leaf list by substituting i with c1, c2. -/
theorem leaves_graft {tr0 trM : Tree} (hwf0 : Wf tr0) (hwfM : Wf trM)
    {i c1 c2 : ℕ} (hi : i < tr0.segs.length)
    (hlenM : trM.segs.length = tr0.segs.length + 2)
    (hc1 : c1 = tr0.segs.length) (hc2 : c2 = tr0.segs.length + 1)
    (hchi : (trM.seg i).children = some (c1, c2))
    (hch : ∀ j, j < tr0.segs.length → j ≠ i →
      (trM.seg j).children = (tr0.seg j).children)
    (hcc1 : (trM.seg c1).children = none) (hcc2 : (trM.seg c2).children = none)
    (hi0 : (tr0.seg i).children = none) :
    ∀ j, j < tr0.segs.length →
      leaves trM j = (leaves tr0 j).flatMap
        (fun y => if y = i then [c1, c2] else [y]) := by
  suffices H : ∀ fuel j, j < tr0.segs.length → tr0.segs.length - j ≤ fuel →
      leaves trM j = (leaves tr0 j).flatMap
        (fun y => if y = i then [c1, c2] else [y]) by
    intro j hj
    exact H (tr0.segs.length - j) j hj le_rfl
  intro fuel
  induction fuel with
  | zero => intro j hj hf; omega
  | succ f ih =>
    intro j hj hf
    cases hc : (tr0.seg j).children with
    | none =>
      rw [leaves_none hwf0 hj hc]
      by_cases hji : j = i
      · subst hji
        rw [leaves_children hwfM (by omega) hchi,
            leaves_none hwfM (by omega) hcc1, leaves_none hwfM (by omega) hcc2]
        simp
      · rw [leaves_none hwfM (by omega) (by rw [hch j hj hji]; exact hc)]
        simp [hji]
    | some ab =>
      obtain ⟨a, b⟩ := ab
      have hji : j ≠ i := fun he => by rw [he, hi0] at hc; exact Option.noConfusion hc
      obtain ⟨hja, hjb, ha, hb, _⟩ := hwf0.children_lt j a b hc
      rw [leaves_children hwf0 hj hc,
          leaves_children hwfM (by omega) (by rw [hch j hj hji]; exact hc),
          List.flatMap_append, ih a ha (by omega), ih b hb (by omega)]

/-! Inversion lemmas for the primitive state steps. -/

theorem seg_set (tr : Tree) (i : ℕ) (v : Seg) (j : ℕ) :
    (tr.segs.set i v).getD j default =
      if j = i ∧ i < tr.segs.length then v else tr.seg j := by
  by_cases hji : j = i
  · subst hji
    by_cases hi : j < tr.segs.length
    · rw [getD_set_self _ _ _ hi, if_pos ⟨rfl, hi⟩]
    · rw [List.set_eq_of_length_le (by omega), if_neg (by simp [hi])]
      rfl
  · rw [getD_set_ne _ _ hji, if_neg (by simp [hji])]
    rfl

theorem gammavariate_ok {ω : ℕ → ℝ} {al be : ℝ} {s : St} {v : ℝ × St}
    (h : gammavariate ω al be s = .ok v) :
    v = (ω s.ix, { s with ix := s.ix + 1 }) ∧ ¬(al ≤ 0 ∨ be ≤ 0) := by
  unfold gammavariate at h
  split at h
  · exact absurd h (by simp)
  · exact ⟨by injection h with h2; rw [h2], by assumption⟩

theorem grow_sustained_ok {ω : ℕ → ℝ} {t : ℤ} {i : ℕ} {s s2 : St}
    (h : grow_sustained ω t i s = .ok s2) :
    s2.ix = s.ix + 1 ∧ s2.log = s.log ∧
    s2.tree.params = s.tree.params ∧ s2.tree.terminal = s.tree.terminal ∧
    s2.tree.intermediate = s.tree.intermediate ∧ s2.tree.root = s.tree.root ∧
    s2.tree.segs = s.tree.segs.set i { s.tree.seg i with
      elongated_len := (ω s.ix + s.tree.params.alpha_be) *
        ((t - (s.tree.seg i).created - 1 : ℤ) : ℝ) } ∧
    ¬(s.tree.params.gamma_be ≤ 0 ∨ s.tree.params.beta_be ≤ 0) := by
  unfold grow_sustained at h
  obtain ⟨a, ha, hf⟩ := bind_ok h
  obtain ⟨hav, hcond⟩ := gammavariate_ok ha
  subst hav
  dsimp only at hf
  injection hf with hf
  subst hf
  refine ⟨rfl, rfl, rfl, rfl, rfl, rfl, rfl, hcond⟩

theorem grow_only_ok {ω : ℕ → ℝ} {dt : ℝ} {i : ℕ} {s s2 : St}
    (h : grow_only ω dt i s = .ok s2) :
    s2.ix = s.ix + 1 ∧ s2.log = s.log ∧
    s2.tree.params = s.tree.params ∧ s2.tree.terminal = s.tree.terminal ∧
    s2.tree.intermediate = s.tree.intermediate ∧ s2.tree.root = s.tree.root ∧
    s2.tree.segs = s.tree.segs.set i { s.tree.seg i with
      elongated_len := (s.tree.seg i).elongated_len +
        (ω s.ix + s.tree.params.alpha_e) * dt } ∧
    ¬(s.tree.params.gamma_e ≤ 0 ∨ s.tree.params.beta_e ≤ 0) := by
  unfold grow_only at h
  obtain ⟨a, ha, hf⟩ := bind_ok h
  obtain ⟨hav, hcond⟩ := gammavariate_ok ha
  subst hav
  dsimp only at hf
  injection hf with hf
  subst hf
  refine ⟨rfl, rfl, rfl, rfl, rfl, rfl, rfl, hcond⟩

theorem newSegment_ok {ω : ℕ → ℝ} {ord : ℕ} {par : Option ℕ} {t : ℤ}
    {s : St} {v : ℕ × St} (h : newSegment ω ord par t s = .ok v) :
    v.1 = s.tree.segs.length ∧ v.2.ix = s.ix + 1 ∧ v.2.log = s.log ∧
    v.2.tree.params = s.tree.params ∧ v.2.tree.terminal = s.tree.terminal ∧
    v.2.tree.intermediate = s.tree.intermediate ∧
    v.2.tree.root = s.tree.root ∧
    v.2.tree.segs = s.tree.segs ++
      [⟨ord, 1, par, none, t, ω s.ix + s.tree.params.alpha_in, 0⟩] ∧
    ¬(s.tree.params.gamma_in ≤ 0 ∨ s.tree.params.beta_in ≤ 0) := by
  unfold newSegment at h
  obtain ⟨a, ha, hf⟩ := bind_ok h
  obtain ⟨hav, hcond⟩ := gammavariate_ok ha
  subst hav
  dsimp only at hf
  injection hf with hf
  subst hf
  refine ⟨rfl, rfl, rfl, rfl, rfl, rfl, rfl, rfl, hcond⟩

theorem deriveBeta_ok {mean sd v : ℝ} (h : deriveBeta mean sd = .ok v) :
    v = sd ^ 2 / mean ∧ mean ≠ 0 := by
  unfold deriveBeta at h
  split at h
  · exact absurd h (by simp)
  · exact ⟨by injection h with h2; rw [h2], by assumption⟩

theorem deriveGamma_ok {mean sd v : ℝ} (h : deriveGamma mean sd = .ok v) :
    v = (mean / sd) ^ 2 ∧ sd ≠ 0 := by
  unfold deriveGamma at h
  split at h
  · exact absurd h (by simp)
  · exact ⟨by injection h with h2; rw [h2], by assumption⟩

theorem mkDendriticTree_ok {ω : ℕ → ℝ} {B E S : ℝ} {N_be : ℕ} {N_e : ℝ}
    {offset_in mean_in sd_in offset_be mean_be sd_be offset_e mean_e sd_e : ℝ}
    {s : St} (h : mkDendriticTree ω B E S N_be N_e offset_in mean_in sd_in
      offset_be mean_be sd_be offset_e mean_e sd_e = .ok s) :
    s.tree.params = ⟨B, E, S, N_be, N_e,
        offset_in, sd_in ^ 2 / mean_in, (mean_in / sd_in) ^ 2,
        offset_be, sd_be ^ 2 / mean_be, (mean_be / sd_be) ^ 2,
        offset_e, sd_e ^ 2 / mean_e, (mean_e / sd_e) ^ 2⟩ ∧
    s.tree.segs = [⟨0, 1, none, none, 0, ω 0 + offset_in, 0⟩] ∧
    s.tree.terminal = [0] ∧ s.tree.intermediate = [] ∧
    s.tree.root = some 0 ∧ s.ix = 1 ∧ s.log = [] ∧
    mean_in ≠ 0 ∧ sd_in ≠ 0 ∧ mean_be ≠ 0 ∧ sd_be ≠ 0 ∧
    mean_e ≠ 0 ∧ sd_e ≠ 0 ∧
    ¬((mean_in / sd_in) ^ 2 ≤ 0 ∨ sd_in ^ 2 / mean_in ≤ 0) := by
  unfold mkDendriticTree at h
  obtain ⟨b1, hb1, h⟩ := bind_ok h
  obtain ⟨g1, hg1, h⟩ := bind_ok h
  obtain ⟨b2, hb2, h⟩ := bind_ok h
  obtain ⟨g2, hg2, h⟩ := bind_ok h
  obtain ⟨b3, hb3, h⟩ := bind_ok h
  obtain ⟨g3, hg3, h⟩ := bind_ok h
  obtain ⟨hb1v, hm1⟩ := deriveBeta_ok hb1
  obtain ⟨hg1v, hs1⟩ := deriveGamma_ok hg1
  obtain ⟨hb2v, hm2⟩ := deriveBeta_ok hb2
  obtain ⟨hg2v, hs2⟩ := deriveGamma_ok hg2
  obtain ⟨hb3v, hm3⟩ := deriveBeta_ok hb3
  obtain ⟨hg3v, hs3⟩ := deriveGamma_ok hg3
  subst hb1v hg1v hb2v hg2v hb3v hg3v
  dsimp only at h
  obtain ⟨a, ha, h⟩ := bind_ok h
  rcases a with ⟨c, s1⟩
  have hspec := newSegment_ok ha
  obtain ⟨hc, hix, hlog, hparams, hterm, hint, hroot, hsegs, hcond⟩ := hspec
  dsimp only at h hc hix hlog hparams hterm hint hroot hsegs
  injection h with h
  subst h
  have hc0 : c = 0 := by simpa using hc
  subst hc0
  dsimp only
  refine ⟨hparams, ?_, rfl, hint, rfl, hix, hlog, hm1, hs1, hm2, hs2, hm3, hs3, hcond⟩
  rw [hsegs]
  rfl

/-! Invariant preservation for a fired branch, stated extensionally over
the pre-walk tree: segment i (terminal, childless) has been given the two
fresh children, and the update_degree walk plus the set moves follow. -/

theorem graft_inv {tr0 trM : Tree} (hInv : Inv tr0) {i : ℕ}
    (hi : i ∈ tr0.terminal) {A B : Seg} {e : ℝ}
    (hA : A.degree = 1 ∧ A.parent = some i ∧ A.children = none)
    (hB : B.degree = 1 ∧ B.parent = some i ∧ B.children = none)
    (hsegM : ∀ j, trM.seg j =
      if j = i then
        { tr0.seg i with
          elongated_len := e,
          children := some (tr0.segs.length, tr0.segs.length + 1) }
      else if j = tr0.segs.length then A
      else if j = tr0.segs.length + 1 then B
      else tr0.seg j)
    (hterm : trM.terminal = tr0.terminal)
    (hint : trM.intermediate = tr0.intermediate)
    (hroot : trM.root = tr0.root)
    (hlenM : trM.segs.length = tr0.segs.length + 2) :
    Inv { update_degree i trM with
      terminal := (update_degree i trM).terminal.erase i ++
        [tr0.segs.length, tr0.segs.length + 1],
      intermediate := (update_degree i trM).intermediate ++ [i] } := by
  set n := tr0.segs.length with hn
  have hi' : i < n := hInv.term_lt i hi
  have hwf0 := hInv.wf
  -- link-level description of the pre-walk tree
  have hchMi : (trM.seg i).children = some (n, n + 1) := by
    rw [hsegM i, if_pos rfl]
  have hchMo : ∀ j, j ≠ i → j ≠ n → j ≠ n + 1 →
      (trM.seg j).children = (tr0.seg j).children := by
    intro j h1 h2 h3
    rw [hsegM j, if_neg h1, if_neg h2, if_neg h3]
  have hchMA : (trM.seg n).children = none := by
    rw [hsegM n, if_neg (by omega), if_pos rfl]
    exact hA.2.2
  have hchMB : (trM.seg (n + 1)).children = none := by
    rw [hsegM (n + 1), if_neg (by omega), if_neg (by omega), if_pos rfl]
    exact hB.2.2
  have hparM : ∀ j, (trM.seg j).parent =
      if j = n ∨ j = n + 1 then some i else (tr0.seg j).parent := by
    intro j
    rw [hsegM j]
    by_cases h1 : j = i
    · subst h1
      rw [if_pos rfl, if_neg (by omega)]
    · rw [if_neg h1]
      by_cases h2 : j = n
      · subst h2
        rw [if_pos rfl, if_pos (Or.inl rfl)]
        exact hA.2.1
      · rw [if_neg h2]
        by_cases h3 : j = n + 1
        · subst h3
          rw [if_pos rfl, if_pos (Or.inr rfl)]
          exact hB.2.1
        · rw [if_neg h3, if_neg (by simp [h2, h3])]
  have hdegM : ∀ j, (trM.seg j).degree =
      if j = n ∨ j = n + 1 then 1 else (tr0.seg j).degree := by
    intro j
    rw [hsegM j]
    by_cases h1 : j = i
    · subst h1
      rw [if_pos rfl, if_neg (by omega)]
    · rw [if_neg h1]
      by_cases h2 : j = n
      · subst h2
        rw [if_pos rfl, if_pos (Or.inl rfl)]
        exact hA.1
      · rw [if_neg h2]
        by_cases h3 : j = n + 1
        · subst h3
          rw [if_pos rfl, if_pos (Or.inr rfl)]
          exact hB.1
        · rw [if_neg h3, if_neg (by simp [h2, h3])]
  have hseg0_out : ∀ j, n ≤ j → tr0.seg j = default := by
    intro j hj
    exact getD_out tr0.segs hj
  have hc0 : (tr0.seg i).children = none := hInv.term_childless i hi
  -- well-formedness of the grafted tree
  have hwfM : Wf trM := by
    constructor
    · intro j a b hcc
      rw [hsegM j] at hcc
      by_cases h1 : j = i
      · subst h1
        rw [if_pos rfl] at hcc
        simp only [Seg.mk.injEq] at hcc
        injection hcc with hcc
        injection hcc with ha hb
        subst ha
        subst hb
        omega
      · rw [if_neg h1] at hcc
        by_cases h2 : j = n
        · subst h2
          rw [if_pos rfl] at hcc
          rw [hA.2.2] at hcc
          exact Option.noConfusion hcc
        · rw [if_neg h2] at hcc
          by_cases h3 : j = n + 1
          · subst h3
            rw [if_pos rfl] at hcc
            rw [hB.2.2] at hcc
            exact Option.noConfusion hcc
          · rw [if_neg h3] at hcc
            have := hwf0.children_lt j a b hcc
            omega
    · intro j p hp
      rw [hparM j] at hp
      by_cases h2 : j = n ∨ j = n + 1
      · rw [if_pos h2] at hp
        injection hp with hp
        omega
      · rw [if_neg h2] at hp
        exact hwf0.parent_lt j p hp
    · intro j a b hcc
      rw [hsegM j] at hcc
      by_cases h1 : j = i
      · subst h1
        rw [if_pos rfl] at hcc
        simp only [Seg.mk.injEq] at hcc
        injection hcc with hcc
        injection hcc with ha hb
        subst ha
        subst hb
        constructor
        · rw [hparM n, if_pos (Or.inl rfl)]
        · rw [hparM (n + 1), if_pos (Or.inr rfl)]
      · rw [if_neg h1] at hcc
        by_cases h2 : j = n
        · subst h2
          rw [if_pos rfl, hA.2.2] at hcc
          exact Option.noConfusion hcc
        · rw [if_neg h2] at hcc
          by_cases h3 : j = n + 1
          · subst h3
            rw [if_pos rfl, hB.2.2] at hcc
            exact Option.noConfusion hcc
          · rw [if_neg h3] at hcc
            obtain ⟨hja, hjb, ha', hb', _⟩ := hwf0.children_lt j a b hcc
            obtain ⟨hpa, hpb⟩ := hwf0.children_parent j a b hcc
            constructor
            · rw [hparM a, if_neg (by omega)]
              exact hpa
            · rw [hparM b, if_neg (by omega)]
              exact hpb
  -- leaf lists rewrite by substituting i with the two fresh leaves
  have GR : ∀ j, j < n → leaves trM j = (leaves tr0 j).flatMap
      (fun y => if y = i then [n, n + 1] else [y]) :=
    leaves_graft hwf0 hwfM hi' hlenM rfl rfl hchMi
      (fun j hj hne => hchMo j hne (by omega) (by omega)) hchMA hchMB hc0
  -- chains in the old region are unchanged
  have chainM : ∀ j, j < n → chain trM j = chain tr0 j := by
    intro j hj
    refine chain_agree hwf0 hwfM j ?_
    intro k hk
    rw [hparM k, if_neg (by omega)]
  -- all degrees are correct after the update_degree walk
  have DOK : ∀ j, j < trM.segs.length → degOk (update_degree i trM) j := by
    have key := @update_degree_correct (fun _ => True) trM i hwfM
      (by omega : i < trM.segs.length)
      (fun _ _ _ _ _ => ⟨trivial, trivial⟩)
      (by
        intro j hj hnotin _
        rw [chainM i hi'] at hnotin
        by_cases hjn : j = n
        · have hd : (trM.seg j).degree = 1 := by
            rw [hdegM j, if_pos (Or.inl hjn)]
          have hl : leaves trM j = [j] :=
            leaves_none hwfM hj (by rw [hjn]; exact hchMA)
          simp only [degOk, hd, hl]
          rfl
        · by_cases hjn1 : j = n + 1
          · have hd : (trM.seg j).degree = 1 := by
              rw [hdegM j, if_pos (Or.inr hjn1)]
            have hl : leaves trM j = [j] :=
              leaves_none hwfM hj (by rw [hjn1]; exact hchMB)
            simp only [degOk, hd, hl]
            rfl
          · have hjlt : j < n := by omega
            have hcnt : (leaves tr0 j).count i = 0 := by
              rw [List.count_eq_zero]
              intro hmem
              exact hnotin (leaves_mem_chain' hwf0 hjlt i hmem)
            have hold := hInv.deg_ok j hjlt
            simp only [degOk] at hold
            have hd : (trM.seg j).degree = (tr0.seg j).degree := by
              rw [hdegM j, if_neg (by omega)]
            simp only [degOk, hd, GR j hjlt, length_flatMap_graft, hcnt]
            omega)
    intro j hj
    exact key j hj trivial
  -- shape of the walked tree
  obtain ⟨sulen, suparams, suterm, suint, suroot, suseg⟩ :=
    update_degree_fuel_shape (i + 1) i trM
  have hterm2 : (update_degree i trM).terminal = tr0.terminal := by
    rw [update_degree, suterm, hterm]
  have hint2 : (update_degree i trM).intermediate = tr0.intermediate := by
    rw [update_degree, suint, hint]
  have hroot2 : (update_degree i trM).root = tr0.root := by
    rw [update_degree, suroot, hroot]
  have hlenU : (update_degree i trM).segs.length = n + 2 := by
    rw [update_degree, sulen, hlenM]
  have hchU : ∀ j, ((update_degree i trM).seg j).children = (trM.seg j).children :=
    fun j => (suseg j).1
  have hparU : ∀ j, ((update_degree i trM).seg j).parent = (trM.seg j).parent :=
    fun j => (suseg j).2.1
  have hlenU' : (update_degree i trM).segs.length = trM.segs.length := by
    rw [update_degree, sulen]
  have hwfU : Wf (update_degree i trM) := wf_shape hlenU' hchU hparU hwfM
  have leavesU : ∀ j, leaves (update_degree i trM) j = leaves trM j :=
    leaves_shape hlenU' hchU
  set trU := update_degree i trM with htrU
  set trF : Tree := { trU with
      terminal := trU.terminal.erase i ++ [n, n + 1],
      intermediate := trU.intermediate ++ [i] } with htrF
  have hFlen : trF.segs.length = n + 2 := hlenU
  have hFseg : ∀ j, trF.seg j = trU.seg j := fun j => rfl
  have leavesF : ∀ j, leaves trF j = leaves trU j :=
    leaves_shape rfl (fun j => rfl)
  have htermF : trF.terminal = tr0.terminal.erase i ++ [n, n + 1] := by
    rw [htrF]
    dsimp only
    rw [hterm2]
  have hintF : trF.intermediate = tr0.intermediate ++ [i] := by
    rw [htrF]
    dsimp only
    rw [hint2]
  have hchF : ∀ j, (trF.seg j).children = (trM.seg j).children := hchU
  have hdegF : ∀ j, (trF.seg j).degree = (trU.seg j).degree := fun j => rfl
  have hterm_pos : 0 < tr0.terminal.length := List.length_pos_of_mem hi
  refine ⟨@wf_shape trU trF rfl (fun j => rfl) (fun j => rfl) hwfU, ?_, ?_, ?_,
          ?_, ?_, ?_, ?_, ?_, ?_, ?_⟩
  · intro y hy
    rw [htermF] at hy
    rcases List.mem_append.mp hy with h | h
    · have := hInv.term_lt y (List.mem_of_mem_erase h)
      omega
    · simp only [List.mem_cons, List.not_mem_nil, or_false] at h
      rcases h with h | h
      · omega
      · omega
  · intro y hy
    rw [hintF] at hy
    rcases List.mem_append.mp hy with h | h
    · have := hInv.int_lt y h
      omega
    · simp only [List.mem_cons, List.not_mem_nil, or_false] at h
      omega
  · rw [htermF]
    refine List.Nodup.append (hInv.term_nodup.erase i) (by simp) ?_
    intro y hy1 hy2
    have := hInv.term_lt y (List.mem_of_mem_erase hy1)
    simp only [List.mem_cons, List.not_mem_nil, or_false] at hy2
    rcases hy2 with h | h
    · omega
    · omega
  · rw [hintF]
    refine List.Nodup.append hInv.int_nodup (by simp) ?_
    intro y hy1 hy2
    simp only [List.mem_cons, List.not_mem_nil, or_false] at hy2
    exact hInv.disj i hi (hy2 ▸ hy1)
  · intro y hy
    rw [htermF] at hy
    rw [hintF]
    intro hmem
    rcases List.mem_append.mp hmem with hm | hm
    · rcases List.mem_append.mp hy with h | h
      · exact hInv.disj y (List.mem_of_mem_erase h) hm
      · have := hInv.int_lt y hm
        simp only [List.mem_cons, List.not_mem_nil, or_false] at h
        rcases h with h | h
        · omega
        · omega
    · simp only [List.mem_cons, List.not_mem_nil, or_false] at hm
      rcases List.mem_append.mp hy with h | h
      · exact ((hInv.term_nodup.mem_erase_iff).mp h).1 hm
      · simp only [List.mem_cons, List.not_mem_nil, or_false] at h
        rcases h with h | h
        · omega
        · omega
  · intro y hy
    rw [htermF] at hy
    rcases List.mem_append.mp hy with h | h
    · have hyy := (hInv.term_nodup.mem_erase_iff).mp h
      have hylt := hInv.term_lt y hyy.2
      rw [hchF y, hchMo y hyy.1 (by omega) (by omega)]
      exact hInv.term_childless y hyy.2
    · simp only [List.mem_cons, List.not_mem_nil, or_false] at h
      rcases h with h | h
      · rw [hchF y, h]
        exact hchMA
      · rw [hchF y, h]
        exact hchMB
  · intro y hy
    rw [hintF] at hy
    rcases List.mem_append.mp hy with h | h
    · have hylt := hInv.int_lt y h
      have hyi : y ≠ i := fun he => hInv.disj i hi (he ▸ h)
      obtain ⟨a, b, hab⟩ := hInv.int_children y h
      exact ⟨a, b, by rw [hchF y, hchMo y hyi (by omega) (by omega)]; exact hab⟩
    · simp only [List.mem_cons, List.not_mem_nil, or_false] at h
      exact ⟨n, n + 1, by rw [hchF y, h]; exact hchMi⟩
  · intro j hj
    rw [hFlen] at hj
    simp only [degOk, hFseg j, leavesF j]
    exact DOK j (by omega)
  · rw [htermF, hintF]
    have h1 : (tr0.terminal.erase i).length = tr0.terminal.length - 1 :=
      List.length_erase_of_mem hi
    have h2 := hInv.count
    have h3 : (tr0.terminal.erase i ++ [n, n + 1]).length
        = tr0.terminal.length - 1 + 2 := by
      rw [List.length_append, h1]
      rfl
    have h4 : (tr0.intermediate ++ [i]).length = tr0.intermediate.length + 1 := by
      rw [List.length_append]
      rfl
    rw [h3, h4]
    omega
  · obtain ⟨r, hr, hrlt, hperm⟩ := hInv.root_def
    have hrF : trF.root = some r := by
      rw [htrF]
      dsimp only
      rw [hroot2, hr]
    refine ⟨r, hrF, by omega, ?_⟩
    have count1 : (leaves tr0 r).count i = 1 := by
      rw [hperm.count_eq]
      exact List.count_eq_one_of_mem hInv.term_nodup hi
    have imem : i ∈ leaves tr0 r := by
      by_contra hnm
      rw [List.count_eq_zero.mpr hnm] at count1
      exact absurd count1 (by omega)
    obtain ⟨u, v, huv⟩ := List.append_of_mem imem
    have hc2 : u.count i + (v.count i + 1) = 1 := by
      rw [huv, List.count_append, List.count_cons_self] at count1
      exact count1
    have hiu : i ∉ u := List.count_eq_zero.mp (by omega)
    have hiv : i ∉ v := List.count_eq_zero.mp (by omega)
    have hflat : leaves trF r = u ++ n :: (n + 1) :: v := by
      rw [leavesF r, leavesU r, GR r hrlt, huv, List.flatMap_append,
          List.flatMap_cons, if_pos rfl, flatMap_graft_id u hiu,
          flatMap_graft_id v hiv]
      rfl
    rw [hflat, htermF]
    have hperm1 : (tr0.terminal.erase i).Perm (u ++ v) := by
      have he1 : (leaves tr0 r).erase i = u ++ v := by
        rw [huv, List.erase_append_right _ hiu, List.erase_cons_head]
      have hp := (hperm.erase i).symm
      rw [he1] at hp
      exact hp
    have hperm2 : (u ++ n :: (n + 1) :: v).Perm ((u ++ v) ++ [n, n + 1]) := by
      have h5 : (n :: (n + 1) :: v).Perm (v ++ [n, n + 1]) := by
        refine List.Perm.trans ?_ List.perm_append_comm
        rfl
      calc (u ++ n :: (n + 1) :: v).Perm (u ++ (v ++ [n, n + 1])) :=
            List.Perm.append_left u h5
        _ = ((u ++ v) ++ [n, n + 1]) := by rw [List.append_assoc]
    exact List.Perm.trans hperm2
      (List.Perm.append_right [n, n + 1] hperm1.symm)

/-- A successful branch call preserves the growth invariant. -/
theorem branch_inv {ω : ℕ → ℝ} {t : ℤ} {i : ℕ} {s s2 : St}
    (hInv : Inv s.tree) (h : branch ω t i s = .ok s2) : Inv s2.tree := by
  unfold branch at h
  cases hc : (s.tree.seg i).children with
  | some ab =>
    rw [hc] at h
    exact absurd h (by simp)
  | none =>
    rw [hc] at h
    dsimp only [randomRandom] at h
    split at h
    · injection h with h
      subst h
      exact hInv
    · obtain ⟨s3, hgs, h⟩ := bind_ok h
      obtain ⟨a4, hns4, h⟩ := bind_ok h
      rcases a4 with ⟨c1, s4⟩
      obtain ⟨a5, hns5, h⟩ := bind_ok h
      rcases a5 with ⟨c2, s5⟩
      dsimp only at h
      obtain ⟨hix3, hlog3, hp3, ht3, hi3, hr3, hsg3, hcond3⟩ :=
        grow_sustained_ok hgs
      obtain ⟨hc1v, hix4, hlog4, hp4, ht4, hi4, hr4, hsg4, hcond4⟩ :=
        newSegment_ok hns4
      obtain ⟨hc2v, hix5, hlog5, hp5, ht5, hi5, hr5, hsg5, hcond5⟩ :=
        newSegment_ok hns5
      dsimp only at hix3 hlog3 hp3 ht3 hi3 hr3 hsg3 hc1v hix4 hlog4
      dsimp only at hp4 ht4 hi4 hr4 hsg4 hc2v hix5 hlog5 hp5 ht5 hi5 hr5 hsg5
      split at h
      case isFalse hmem => exact absurd h (by simp)
      case isTrue hmem =>
        injection h with h
        subst h
        set n := s.tree.segs.length with hn
        have hlen3 : s3.tree.segs.length = n := by
          rw [hsg3, List.length_set]
        have hlen4 : s4.tree.segs.length = n + 1 := by
          rw [hsg4, List.length_append, hlen3]
          rfl
        have hlen5 : s5.tree.segs.length = n + 2 := by
          rw [hsg5, List.length_append, hlen4]
          rfl
        have hc1n : c1 = n := by rw [hc1v, hlen3]
        have hc2n : c2 = n + 1 := by rw [hc2v, hlen4]
        -- the state whose tree receives the children assignment
        set trM : Tree := (s5.setSeg i (fun sg =>
          { sg with children := some (c1, c2) })).tree with htrM
        have htermM : trM.terminal = s.tree.terminal := by
          rw [htrM]
          show s5.tree.terminal = s.tree.terminal
          rw [ht5, ht4, ht3]
        have hmem' : i ∈ s.tree.terminal := by
          have : (update_degree i trM).terminal = trM.terminal := by
            rw [update_degree]
            exact (update_degree_fuel_shape (i + 1) i trM).2.2.1
          rw [this, htermM] at hmem
          exact hmem
        have hi' : i < n := hInv.term_lt i hmem'
        have hintM : trM.intermediate = s.tree.intermediate := by
          rw [htrM]
          show s5.tree.intermediate = s.tree.intermediate
          rw [hi5, hi4, hi3]
        have hrootM : trM.root = s.tree.root := by
          rw [htrM]
          show s5.tree.root = s.tree.root
          rw [hr5, hr4, hr3]
        have hlenM : trM.segs.length = n + 2 := by
          rw [htrM]
          show (s5.tree.segs.set i _).length = n + 2
          rw [List.length_set, hlen5]
        -- segment-level description of the pre-walk tree
        have hseg5i : ∀ j, s5.tree.seg j =
            if j = i then { s.tree.seg i with elongated_len :=
                (ω (s.ix + 1) + s.tree.params.alpha_be) *
                  ((t - (s.tree.seg i).created - 1 : ℤ) : ℝ) }
            else if j = n then
              ⟨(s3.tree.seg i).order + 1, 1, some i, none, t,
                ω s3.ix + s3.tree.params.alpha_in, 0⟩
            else if j = n + 1 then
              ⟨(s3.tree.seg i).order + 1, 1, some i, none, t,
                ω s4.ix + s4.tree.params.alpha_in, 0⟩
            else s.tree.seg j := by
          intro j
          show s5.tree.segs.getD j default = _
          rw [hsg5, hsg4, hsg3]
          by_cases hji : j = i
          · rw [if_pos hji,
                getD_append_left _ _
                  (by rw [List.length_append, List.length_set,
                          List.length_singleton, ← hn]; omega),
                getD_append_left _ _ (by rw [List.length_set, ← hn]; omega),
                seg_set s.tree i _ j,
                if_pos ⟨hji, by rw [← hn]; omega⟩]
          · rw [if_neg hji]
            by_cases hjn : j = n
            · rw [if_pos hjn,
                  getD_append_left _ _
                    (by rw [List.length_append, List.length_set,
                            List.length_singleton, ← hn]; omega),
                  getD_append_right _ _ (by rw [List.length_set, ← hn]; omega),
                  List.length_set, ← hn, hjn]
              simp
            · rw [if_neg hjn]
              by_cases hjn1 : j = n + 1
              · rw [if_pos hjn1,
                    getD_append_right _ _
                      (by rw [List.length_append, List.length_set,
                              List.length_singleton, ← hn]; omega),
                    List.length_append, List.length_set,
                    List.length_singleton, ← hn, hjn1]
                simp
              · rw [if_neg hjn1]
                by_cases hjlt : j < n
                · rw [getD_append_left _ _
                        (by rw [List.length_append, List.length_set,
                                List.length_singleton, ← hn]; omega),
                      getD_append_left _ _ (by rw [List.length_set, ← hn]; omega),
                      seg_set s.tree i _ j, if_neg (by simp [hji])]
                · have h1 : s.tree.seg j = default :=
                    getD_out s.tree.segs (by rw [← hn]; omega)
                  rw [getD_append_right _ _
                        (by rw [List.length_append, List.length_set,
                                List.length_singleton, ← hn]; omega),
                      List.length_append, List.length_set, List.length_singleton,
                      List.getD_eq_default _ _
                        (by rw [List.length_singleton, ← hn]; omega), h1]
        have hsegM : ∀ j, trM.seg j =
            if j = i then
              { s.tree.seg i with
                elongated_len := (ω (s.ix + 1) + s.tree.params.alpha_be) *
                  ((t - (s.tree.seg i).created - 1 : ℤ) : ℝ),
                children := some (n, n + 1) }
            else if j = n then
              ⟨(s3.tree.seg i).order + 1, 1, some i, none, t,
                ω s3.ix + s3.tree.params.alpha_in, 0⟩
            else if j = n + 1 then
              ⟨(s3.tree.seg i).order + 1, 1, some i, none, t,
                ω s4.ix + s4.tree.params.alpha_in, 0⟩
            else s.tree.seg j := by
          intro j
          have hstep : trM.seg j =
              if j = i ∧ i < s5.tree.segs.length
              then { s5.tree.seg i with children := some (c1, c2) }
              else s5.tree.seg j := by
            rw [htrM]
            exact seg_set s5.tree i _ j
          rw [hstep]
          by_cases hji : j = i
          · subst hji
            rw [if_pos ⟨rfl, by omega⟩, if_pos rfl, hseg5i j, if_pos rfl,
                hc1n, hc2n]
          · rw [if_neg (by simp [hji]), if_neg hji, hseg5i j, if_neg hji]
        rw [hc1n, hc2n]
        exact graft_inv hInv hmem' ⟨rfl, rfl, rfl⟩ ⟨rfl, rfl, rfl⟩ hsegM
          htermM hintM hrootM hlenM

/-- Invariant transport along a single-segment write that keeps the link
and degree fields. -/
theorem inv_set_field {tr tr2 : Tree} (hInv : Inv tr) {i : ℕ} {v : Seg}
    (hsegs : tr2.segs = tr.segs.set i v)
    (hv1 : v.children = (tr.seg i).children)
    (hv2 : v.parent = (tr.seg i).parent)
    (hv3 : v.degree = (tr.seg i).degree)
    (ht : tr2.terminal = tr.terminal) (hi2 : tr2.intermediate = tr.intermediate)
    (hr : tr2.root = tr.root) : Inv tr2 := by
  have key : ∀ j, tr2.seg j = if j = i ∧ i < tr.segs.length then v else tr.seg j := by
    intro j
    show tr2.segs.getD j default = _
    rw [hsegs, seg_set]
  refine inv_shape (by rw [hsegs, List.length_set]) ?_ ?_ ?_ ht hi2 hr hInv
  · intro j
    rw [key j]
    by_cases hcase : j = i ∧ i < tr.segs.length
    · rw [if_pos hcase, hv1, hcase.1]
    · rw [if_neg hcase]
  · intro j
    rw [key j]
    by_cases hcase : j = i ∧ i < tr.segs.length
    · rw [if_pos hcase, hv2, hcase.1]
    · rw [if_neg hcase]
  · intro j
    rw [key j]
    by_cases hcase : j = i ∧ i < tr.segs.length
    · rw [if_pos hcase, hv3, hcase.1]
    · rw [if_neg hcase]

theorem grow_sustained_inv {ω : ℕ → ℝ} {t : ℤ} {i : ℕ} {s s2 : St}
    (hInv : Inv s.tree) (h : grow_sustained ω t i s = .ok s2) : Inv s2.tree := by
  obtain ⟨_, _, _, ht, hi2, hr, hsg, _⟩ := grow_sustained_ok h
  exact inv_set_field hInv hsg rfl rfl rfl ht hi2 hr

theorem grow_only_inv {ω : ℕ → ℝ} {dt : ℝ} {i : ℕ} {s s2 : St}
    (hInv : Inv s.tree) (h : grow_only ω dt i s = .ok s2) : Inv s2.tree := by
  obtain ⟨_, _, _, ht, hi2, hr, hsg, _⟩ := grow_only_ok h
  exact inv_set_field hInv hsg rfl rfl rfl ht hi2 hr

theorem binSweep_inv {ω : ℕ → ℝ} {t : ℤ} :
    ∀ (l : List ℕ) (s s2 : St), Inv s.tree → binSweep ω t l s = .ok s2 →
      Inv s2.tree := by
  intro l
  induction l with
  | nil =>
    intro s s2 hInv h
    unfold binSweep at h
    injection h with h
    subst h
    exact hInv
  | cons x rest ih =>
    intro s s2 hInv h
    unfold binSweep at h
    obtain ⟨s1, h1, h2⟩ := bind_ok h
    exact ih s1 s2 (branch_inv hInv h1) h2

theorem growPhase1_inv {ω : ℕ → ℝ} :
    ∀ (bins : List ℕ) (s s2 : St), Inv s.tree → growPhase1 ω bins s = .ok s2 →
      Inv s2.tree := by
  intro bins
  induction bins with
  | nil =>
    intro s s2 hInv h
    unfold growPhase1 at h
    injection h with h
    subst h
    exact hInv
  | cons x rest ih =>
    intro s s2 hInv h
    unfold growPhase1 at h
    obtain ⟨s1, h1, h2⟩ := bind_ok h
    exact ih s1 s2 (binSweep_inv _ s s1 hInv h1) h2

theorem growPhase2_inv {ω : ℕ → ℝ} {t : ℤ} :
    ∀ (l : List ℕ) (s s2 : St), Inv s.tree → growPhase2 ω t l s = .ok s2 →
      Inv s2.tree := by
  intro l
  induction l with
  | nil =>
    intro s s2 hInv h
    unfold growPhase2 at h
    injection h with h
    subst h
    exact hInv
  | cons x rest ih =>
    intro s s2 hInv h
    unfold growPhase2 at h
    obtain ⟨s1, h1, h2⟩ := bind_ok h
    exact ih s1 s2 (grow_sustained_inv hInv h1) h2

theorem growPhase3_inv {ω : ℕ → ℝ} {dt : ℝ} :
    ∀ (l : List ℕ) (s s2 : St), Inv s.tree → growPhase3 ω dt l s = .ok s2 →
      Inv s2.tree := by
  intro l
  induction l with
  | nil =>
    intro s s2 hInv h
    unfold growPhase3 at h
    injection h with h
    subst h
    exact hInv
  | cons x rest ih =>
    intro s s2 hInv h
    unfold growPhase3 at h
    obtain ⟨s1, h1, h2⟩ := bind_ok h
    exact ih s1 s2 (grow_only_inv hInv h1) h2

/-- A successful grow() call preserves the growth invariant. -/
theorem grow_inv {ω : ℕ → ℝ} {s s2 : St} (hInv : Inv s.tree)
    (h : grow ω s = .ok s2) : Inv s2.tree := by
  unfold grow at h
  obtain ⟨sa, ha, h⟩ := bind_ok h
  obtain ⟨sb, hb, h⟩ := bind_ok h
  obtain ⟨sc, hcc, h⟩ := bind_ok h
  injection h with h
  subst h
  exact growPhase3_inv _ sb sc
    (growPhase2_inv _ sa sb (growPhase1_inv _ s sa hInv ha) hb) hcc

/-- DendriticTree construction establishes the growth invariant. -/
theorem mkDendriticTree_inv {ω : ℕ → ℝ} {B E S : ℝ} {N_be : ℕ} {N_e : ℝ}
    {offset_in mean_in sd_in offset_be mean_be sd_be offset_e mean_e sd_e : ℝ}
    {s : St} (h : mkDendriticTree ω B E S N_be N_e offset_in mean_in sd_in
      offset_be mean_be sd_be offset_e mean_e sd_e = .ok s) : Inv s.tree := by
  obtain ⟨hp, hsegs, ht, hi, hr, _, _, _⟩ := mkDendriticTree_ok h
  have hlen : s.tree.segs.length = 1 := by rw [hsegs]; rfl
  have hseg0 : s.tree.seg 0 = ⟨0, 1, none, none, 0, ω 0 + offset_in, 0⟩ := by
    show s.tree.segs.getD 0 default = _
    rw [hsegs]
    rfl
  have hsegj : ∀ j, j ≠ 0 → s.tree.seg j = default := by
    intro j hj
    show s.tree.segs.getD j default = _
    rw [hsegs]
    apply getD_out
    simp only [List.length_singleton]
    omega
  have hchn : ∀ j, (s.tree.seg j).children = none := by
    intro j
    by_cases hj : j = 0
    · rw [hj, hseg0]
    · rw [hsegj j hj]
      rfl
  have hpar : ∀ j, (s.tree.seg j).parent = none := by
    intro j
    by_cases hj : j = 0
    · rw [hj, hseg0]
    · rw [hsegj j hj]
      rfl
  have hwf : Wf s.tree := by
    constructor
    · intro j a b hcc
      rw [hchn j] at hcc
      exact Option.noConfusion hcc
    · intro j p hpp
      rw [hpar j] at hpp
      exact Option.noConfusion hpp
    · intro j a b hcc
      rw [hchn j] at hcc
      exact Option.noConfusion hcc
  have hleaf0 : leaves s.tree 0 = [0] := leaves_none hwf (by omega) (hchn 0)
  refine ⟨hwf, ?_, ?_, ?_, ?_, ?_, ?_, ?_, ?_, ?_, ?_⟩
  · intro y hy
    rw [ht] at hy
    simp only [List.mem_cons, List.not_mem_nil, or_false] at hy
    omega
  · intro y hy
    rw [hi] at hy
    exact absurd hy (List.not_mem_nil y)
  · rw [ht]
    simp
  · rw [hi]
    simp
  · intro y hy
    rw [hi]
    exact List.not_mem_nil y
  · intro y hy
    rw [ht] at hy
    simp only [List.mem_cons, List.not_mem_nil, or_false] at hy
    subst hy
    exact hchn 0
  · intro y hy
    rw [hi] at hy
    exact absurd hy (List.not_mem_nil y)
  · intro j hj
    rw [hlen] at hj
    have hj0 : j = 0 := by omega
    subst hj0
    simp only [degOk, hleaf0, hseg0]
    rfl
  · rw [ht, hi]
    rfl
  · refine ⟨0, hr, by omega, ?_⟩
    rw [hleaf0, ht]

/-- The two degree identities of the specification follow from the
invariant. -/
theorem inv_identities {tr : Tree} (h : Inv tr) :
    tr.degree = tr.terminal.length ∧
    (∀ i ∈ tr.intermediate, ∃ a b, (tr.seg i).children = some (a, b) ∧
      (tr.seg i).degree = (tr.seg a).degree + (tr.seg b).degree) ∧
    (∀ i, i < tr.segs.length → (tr.seg i).children = none →
      (tr.seg i).degree = 1) := by
  obtain ⟨r, hr, hrlt, hperm⟩ := h.root_def
  refine ⟨?_, ?_, ?_⟩
  · have hd := h.deg_ok r hrlt
    simp only [degOk] at hd
    simp only [Tree.degree, hr]
    rw [hd, hperm.length_eq]
  · intro i hi
    obtain ⟨a, b, hab⟩ := h.int_children i hi
    have hilt := h.int_lt i hi
    obtain ⟨_, _, ha, hb, _⟩ := h.wf.children_lt i a b hab
    have hdi := h.deg_ok i hilt
    have hda := h.deg_ok a ha
    have hdb := h.deg_ok b hb
    simp only [degOk] at hdi hda hdb
    refine ⟨a, b, hab, ?_⟩
    rw [hdi, hda, hdb, leaves_children h.wf hilt hab, List.length_append]
  · intro i hi hcc
    have hd := h.deg_ok i hi
    simp only [degOk] at hd
    rw [hd, leaves_none h.wf hi hcc]
    rfl

/-! Concrete runs used by the counterexamples and witnesses. -/

theorem foldl_add_nonneg (f : ℕ → ℝ) (hf : ∀ j, 0 ≤ f j) :
    ∀ (l : List ℕ) (acc : ℝ), 0 ≤ acc →
      0 ≤ l.foldl (fun a j => a + f j) acc := by
  intro l
  induction l with
  | nil => intro acc h; exact h
  | cons x rest ih =>
    intro acc h
    exact ih (acc + f x) (by have := hf x; linarith)

/-- The branching probability is never negative when B is non-negative, so
a zero uniform draw always fires the branch. -/
theorem branching_probability_nonneg (tr : Tree) (i : ℕ)
    (hB : 0 ≤ tr.params.B) : 0 ≤ branching_probability tr i := by
  unfold branching_probability branching_probability_normalization_constant
  have h1 : (0:ℝ) ≤ tr.terminal.foldl
      (fun acc j => acc + (2:ℝ) ^ (-(tr.params.S * ((tr.seg j).order : ℝ)))) 0 :=
    foldl_add_nonneg _ (fun j => Real.rpow_nonneg (by norm_num) _) tr.terminal 0
      le_rfl
  have h2 : (0:ℝ) ≤ (2:ℝ) ^ (-(tr.params.S * ((tr.seg i).order : ℝ))) :=
    Real.rpow_nonneg (by norm_num) _
  have h3 : (0:ℝ) ≤ ((tr.terminal.length : ℝ)) ^ tr.params.E :=
    Real.rpow_nonneg (by positivity) _
  have h4 : (0:ℝ) ≤ ((tr.params.N_be : ℕ) : ℝ) := by positivity
  positivity


theorem mk_eval_omega0 :
    mkDendriticTree omega0 1 1 0 2 0 0 1 1 0 1 1 0 1 1 = .ok st1 := by
  unfold mkDendriticTree deriveBeta deriveGamma newSegment gammavariate
  norm_num [omega0, st1, params1, Bind.bind, Except.bind]


theorem branchA_eval : branch omega0 0 0 st1 = .ok stA := by
  unfold branch grow_sustained newSegment gammavariate
  norm_num [st1, stA, params1, Tree.seg, St.setSeg, randomRandom, omega0,
    update_degree, update_degree_fuel,
    branching_probability, branching_probability_normalization_constant,
    Real.rpow_zero, Real.rpow_one, Real.one_rpow, Bind.bind, Except.bind,
    List.getD, List.erase]


theorem branchB_eval : branch omega0 1 1 stA = .ok stB := by
  unfold branch grow_sustained newSegment gammavariate
  norm_num [stA, stB, params1, Tree.seg, St.setSeg, randomRandom, omega0,
    update_degree, update_degree_fuel,
    branching_probability, branching_probability_normalization_constant,
    Real.rpow_zero, Real.rpow_one, Real.one_rpow, Bind.bind, Except.bind,
    List.getD, List.erase, List.set]

theorem branchC_eval : branch omega0 1 2 stB = .ok stC := by
  unfold branch grow_sustained newSegment gammavariate
  norm_num [stB, stC, params1, Tree.seg, St.setSeg, randomRandom, omega0,
    update_degree, update_degree_fuel,
    branching_probability, branching_probability_normalization_constant,
    Real.rpow_zero, Real.rpow_one, Real.one_rpow, Bind.bind, Except.bind,
    List.getD, List.erase, List.set]

theorem sweep0_eval : binSweep omega0 0 [0] st1 = .ok stA := by
  simp only [binSweep, branchA_eval, Bind.bind, Except.bind]

theorem sweep1_eval : binSweep omega0 1 [1, 2] stA = .ok stC := by
  simp only [binSweep, branchB_eval, Bind.bind, Except.bind, branchC_eval]

theorem phase1_eval : growPhase1 omega0 [0, 1] st1 = .ok stC := by
  have h1 : st1.tree.terminal = [0] := rfl
  have h2 : stA.tree.terminal = [1, 2] := rfl
  simp only [growPhase1, h1, h2, Nat.cast_zero, Nat.cast_one, sweep0_eval,
    Bind.bind, Except.bind, sweep1_eval]

theorem phase2_eval : growPhase2 omega0 2 [3, 4, 5, 6] stC = .ok stD := by
  norm_num [growPhase2, grow_sustained, gammavariate, stC, stD, params1, Tree.seg, St.setSeg, omega0,
    Bind.bind, Except.bind, List.getD, List.set]

theorem phase3_eval : growPhase3 omega0 0 [3, 4, 5, 6] stD = .ok stE := by
  norm_num [growPhase3, grow_only, gammavariate, stD, stE, params1, Tree.seg, St.setSeg, omega0,
    Bind.bind, Except.bind, List.getD, List.set]

theorem grow_eval : grow omega0 st1 = .ok stE := by
  unfold grow
  have h1 : st1.tree.params.N_be = 2 := rfl
  have h2 : List.range 2 = [0, 1] := rfl
  have h3 : stC.tree.terminal = [3, 4, 5, 6] := rfl
  have h4 : stD.tree.terminal = [3, 4, 5, 6] := rfl
  have h5 : stD.tree.params.N_e = 0 := rfl
  rw [h1]
  dsimp only
  rw [h2]
  simp only [phase1_eval, Bind.bind, Except.bind, h3, h4, h5, Nat.cast_ofNat,
    phase2_eval, phase3_eval]

/-! Claim C8: the branching-probability formula. -/

theorem foldl_add_eq_sum (f : ℕ → ℝ) :
    ∀ (l : List ℕ) (acc : ℝ),
      l.foldl (fun a j => a + f j) acc = acc + (l.map f).sum := by
  intro l
  induction l with
  | nil => intro acc; simp
  | cons x rest ih =>
    intro acc
    rw [List.foldl_cons, ih, List.map_cons, List.sum_cons]
    ring

/-- C8: for every segment index and every tree state, branching_probability
returns 2^(-S·order) · B / C⁻¹ / N_be / n_i^E, where n_i is the current
terminal-segment count of the whole tree and C⁻¹ is the sum of
2^(-S·order(t)) over the current terminal segments t, divided by n_i. -/
theorem claim_C8_branching_probability_formula (tr : Tree) (i : ℕ) :
    branching_probability tr i =
      (2:ℝ) ^ (-(tr.params.S * ((tr.seg i).order : ℝ))) * tr.params.B
        / ((tr.terminal.map
              (fun t => (2:ℝ) ^ (-(tr.params.S * ((tr.seg t).order : ℝ))))).sum
            / (tr.terminal.length : ℝ))
        / (tr.params.N_be : ℝ) / ((tr.terminal.length : ℝ) ^ tr.params.E) := by
  unfold branching_probability branching_probability_normalization_constant
  rw [foldl_add_eq_sum, zero_add]

/-! Claim C10: children = None makes the three properties raise. -/

/-- C10: a segment that never branched has children = None, so is_terminal,
is_intermediate and partition_asymmetry raise TypeError on it instead of
returning False or 0; in particular this applies to every terminal segment
of a tree grown from a valid construction. -/
theorem claim_C10_children_none_typeerror :
    (∀ sg : Seg, sg.children = none →
      is_terminal sg = .error .typeError ∧
      is_intermediate sg = .error .typeError) ∧
    (∀ (tr : Tree) (i : ℕ), (tr.seg i).children = none →
      partition_asymmetry tr i = .error .typeError) ∧
    (∀ (ω : ℕ → ℝ) (s s2 : St), Inv s.tree → grow ω s = .ok s2 →
      ∀ i ∈ s2.tree.terminal, (s2.tree.seg i).children = none ∧
        is_terminal (s2.tree.seg i) = .error .typeError ∧
        partition_asymmetry s2.tree i = .error .typeError) := by
  have h1 : ∀ sg : Seg, sg.children = none →
      is_terminal sg = .error .typeError ∧
      is_intermediate sg = .error .typeError := by
    intro sg hc
    constructor
    · unfold is_terminal
      rw [hc]
    · unfold is_intermediate
      rw [hc]
  have h2 : ∀ (tr : Tree) (i : ℕ), (tr.seg i).children = none →
      partition_asymmetry tr i = .error .typeError := by
    intro tr i hc
    have hit := (h1 (tr.seg i) hc).2
    simp only [partition_asymmetry, Bind.bind, Except.bind, hit]
  refine ⟨h1, h2, ?_⟩
  intro ω s s2 hInv h i hi
  have hc := (grow_inv hInv h).term_childless i hi
  exact ⟨hc, (h1 _ hc).1, h2 _ _ hc⟩

/-- Witness for C10 on the concrete omega0 run: terminal segment 3 of the
grown tree makes both properties raise. -/
theorem claim_C10_witness :
    is_terminal (stE.tree.seg 3) = .error .typeError ∧
    partition_asymmetry stE.tree 3 = .error .typeError := by
  have h := claim_C10_children_none_typeerror.2.2 omega0 st1 stE
    (mkDendriticTree_inv mk_eval_omega0) grow_eval 3 (by norm_num [stE])
  exact ⟨h.2.1, h.2.2⟩

/-! Claim C7: the degree identities. -/

/-- C7: after every successful grow() and after every successful individual
branch() from an invariant-satisfying state, degree(root) equals the
number of terminal segments, every intermediate segment's degree is the
sum of its two children's degrees, and every childless segment has
degree 1. -/
theorem claim_C7_degree_identities :
    (∀ (ω : ℕ → ℝ) (s s2 : St), Inv s.tree → grow ω s = .ok s2 →
      s2.tree.degree = s2.tree.terminal.length ∧
      (∀ i ∈ s2.tree.intermediate, ∃ a b,
        (s2.tree.seg i).children = some (a, b) ∧
        (s2.tree.seg i).degree =
          (s2.tree.seg a).degree + (s2.tree.seg b).degree) ∧
      (∀ i, i < s2.tree.segs.length → (s2.tree.seg i).children = none →
        (s2.tree.seg i).degree = 1)) ∧
    (∀ (ω : ℕ → ℝ) (t : ℤ) (i : ℕ) (s s2 : St), Inv s.tree →
      branch ω t i s = .ok s2 →
      s2.tree.degree = s2.tree.terminal.length ∧
      (∀ j ∈ s2.tree.intermediate, ∃ a b,
        (s2.tree.seg j).children = some (a, b) ∧
        (s2.tree.seg j).degree =
          (s2.tree.seg a).degree + (s2.tree.seg b).degree) ∧
      (∀ j, j < s2.tree.segs.length → (s2.tree.seg j).children = none →
        (s2.tree.seg j).degree = 1)) :=
  ⟨fun _ _ _ hInv h => inv_identities (grow_inv hInv h),
   fun _ _ _ _ _ hInv h => inv_identities (branch_inv hInv h)⟩

/-- Witness for C7 on the concrete omega0 run. -/
theorem claim_C7_witness :
    stE.tree.degree = stE.tree.terminal.length ∧
    (stE.tree.seg 3).degree = 1 := by
  have h := claim_C7_degree_identities.1 omega0 st1 stE
    (mkDendriticTree_inv mk_eval_omega0) grow_eval
  exact ⟨h.1, h.2.2 3 (by norm_num [stE]) (by norm_num [stE, Tree.seg, List.getD])⟩

/-! Claim C6: the set-count identity. -/

/-- C6 is false as stated: DendriticTree.empty() clears both sets, leaving
0 intermediate and 0 terminal segments, which violates the claimed
invariant |intermediate| = |terminal| - 1 even though empty() is a public
operation invoked after initialization (the importer calls it on a freshly
constructed tree). -/
theorem claim_C6_counterexample :
    grow omega0 st1 = .ok stE ∧
    ((stE.tree.empty).intermediate.length : ℤ) ≠
      ((stE.tree.empty).terminal.length : ℤ) - 1 :=
  ⟨grow_eval, by norm_num [Tree.empty]⟩

/-- C6 (amended): the identity |intermediate| = |terminal| - 1 is
established by construction and preserved by every successful branch() and
every successful grow() from an invariant-satisfying state; empty() breaks
it (see the counterexample). -/
theorem claim_C6_count_identity :
    (∀ (ω : ℕ → ℝ) (B E S : ℝ) (N_be : ℕ)
       (N_e o1 m1 d1 o2 m2 d2 o3 m3 d3 : ℝ) (s : St),
      mkDendriticTree ω B E S N_be N_e o1 m1 d1 o2 m2 d2 o3 m3 d3 = .ok s →
      (s.tree.intermediate.length : ℤ) = (s.tree.terminal.length : ℤ) - 1) ∧
    (∀ (ω : ℕ → ℝ) (t : ℤ) (i : ℕ) (s s2 : St), Inv s.tree →
      branch ω t i s = .ok s2 →
      (s2.tree.intermediate.length : ℤ) = (s2.tree.terminal.length : ℤ) - 1) ∧
    (∀ (ω : ℕ → ℝ) (s s2 : St), Inv s.tree → grow ω s = .ok s2 →
      (s2.tree.intermediate.length : ℤ) = (s2.tree.terminal.length : ℤ) - 1) := by
  refine ⟨?_, ?_, ?_⟩
  · intro ω B E S N_be N_e o1 m1 d1 o2 m2 d2 o3 m3 d3 s h
    have := (mkDendriticTree_inv h).count
    omega
  · intro ω t i s s2 hInv h
    have := (branch_inv hInv h).count
    omega
  · intro ω s s2 hInv h
    have := (grow_inv hInv h).count
    omega

/-- Witness for the amended C6 at the concrete construction and run. -/
theorem claim_C6_count_identity_witness :
    (st1.tree.intermediate.length : ℤ) = (st1.tree.terminal.length : ℤ) - 1 ∧
    (stE.tree.intermediate.length : ℤ) = (stE.tree.terminal.length : ℤ) - 1 :=
  ⟨claim_C6_count_identity.1 omega0 1 1 0 2 0 0 1 1 0 1 1 0 1 1 st1 mk_eval_omega0,
   claim_C6_count_identity.2.2 omega0 st1 stE
     (mkDendriticTree_inv mk_eval_omega0) grow_eval⟩

/-! Claim C5: sign of the computed lengths. -/

/-- C5 is false as stated: in the omega0 run the root branches in bin 0
(its creation bin), so grow_sustained(0) sets its elongated_len to
rate × (0 - 0 - 1) = -rate < 0, and the final grown tree carries a
negative elongated_len. -/
theorem claim_C5_counterexample :
    grow omega0 st1 = .ok stE ∧ (stE.tree.seg 0).elongated_len < 0 :=
  ⟨grow_eval, by norm_num [stE, Tree.seg, List.getD]⟩

/-- C5 (amended): grow_sustained(t) yields a non-negative elongated_len
only under the extra hypotheses that the sampled rate is non-negative and
that at least one full bin has elapsed since creation (created + 1 ≤ t) —
the latter fails for the root in bin 0; newSegment's initial_len is
non-negative whenever the sample plus offset is. -/
theorem claim_C5_nonneg_conditions :
    (∀ (ω : ℕ → ℝ) (t : ℤ) (i : ℕ) (s s2 : St),
      grow_sustained ω t i s = .ok s2 → i < s.tree.segs.length →
      0 ≤ ω s.ix + s.tree.params.alpha_be →
      (s.tree.seg i).created + 1 ≤ t →
      0 ≤ (s2.tree.seg i).elongated_len) ∧
    (∀ (ω : ℕ → ℝ) (ord : ℕ) (par : Option ℕ) (t : ℤ) (s : St) (v : ℕ × St),
      newSegment ω ord par t s = .ok v →
      0 ≤ ω s.ix + s.tree.params.alpha_in →
      0 ≤ (v.2.tree.seg v.1).initial_len ∧
        (v.2.tree.seg v.1).elongated_len = 0) := by
  constructor
  · intro ω t i s s2 h hlt hrate hcreated
    obtain ⟨_, _, _, _, _, _, hsegs, _⟩ := grow_sustained_ok h
    have : s2.tree.seg i = { s.tree.seg i with
        elongated_len := (ω s.ix + s.tree.params.alpha_be) *
          ((t - (s.tree.seg i).created - 1 : ℤ) : ℝ) } := by
      show s2.tree.segs.getD i default = _
      rw [hsegs, seg_set, if_pos ⟨rfl, hlt⟩]
    rw [this]
    have hfac : (0:ℝ) ≤ ((t - (s.tree.seg i).created - 1 : ℤ) : ℝ) := by
      have : (0:ℤ) ≤ t - (s.tree.seg i).created - 1 := by omega
      exact_mod_cast this
    exact mul_nonneg hrate hfac
  · intro ω ord par t s v h hin
    obtain ⟨hv1, _, _, _, _, _, _, hsegs, _⟩ := newSegment_ok h
    have : v.2.tree.seg v.1 =
        ⟨ord, 1, par, none, t, ω s.ix + s.tree.params.alpha_in, 0⟩ := by
      show v.2.tree.segs.getD v.1 default = _
      rw [hsegs, hv1, getD_append_right _ _ (le_refl _), Nat.sub_self]
      rfl
    rw [this]
    exact ⟨hin, rfl⟩

theorem gs_eval : grow_sustained omega1 5 0 st1 = .ok st1gs := by
  norm_num [grow_sustained, gammavariate, st1, st1gs, params1, Tree.seg,
    St.setSeg, omega1, Bind.bind, Except.bind, List.getD, List.set]

/-- Witness for the amended C5 at a concrete late-bin elongation. -/
theorem claim_C5_nonneg_witness : 0 ≤ (st1gs.tree.seg 0).elongated_len :=
  claim_C5_nonneg_conditions.1 omega1 5 0 st1 st1gs gs_eval
    (by norm_num [st1])
    (by norm_num [omega1, st1, params1])
    (by norm_num [st1, Tree.seg, List.getD])

/-! Claim C1: the per-bin snapshot discipline. -/

/-- The ghost log of one branch attempt: exactly one record is appended,
carrying the live terminal count and normalization constant read by the
branching-probability computation. -/
theorem branch_log {ω : ℕ → ℝ} {t : ℤ} {i : ℕ} {s s2 : St}
    (h : branch ω t i s = .ok s2) :
    s2.log = s.log ++ [⟨t, i, s.tree.terminal.length,
      branching_probability_normalization_constant s.tree⟩] := by
  unfold branch at h
  cases hc : (s.tree.seg i).children with
  | some ab => rw [hc] at h; exact absurd h (by simp)
  | none =>
    rw [hc] at h
    dsimp only [randomRandom] at h
    split at h
    · injection h with h
      subst h
      rfl
    · obtain ⟨s3, h3, h⟩ := bind_ok h
      obtain ⟨_, hlog3, _⟩ := grow_sustained_ok h3
      obtain ⟨⟨c1, s4⟩, h4, h⟩ := bind_ok h
      obtain ⟨_, _, hlog4, _⟩ := newSegment_ok h4
      dsimp only at h hlog4
      obtain ⟨⟨c2, s5⟩, h5, h⟩ := bind_ok h
      obtain ⟨_, _, hlog5, _⟩ := newSegment_ok h5
      dsimp only at h hlog5
      split at h
      · injection h with h
        subst h
        dsimp only [St.setSeg]
        rw [hlog5, hlog4, hlog3]
      · exact absurd h (by simp)

/-- C1 is false as stated: in the omega0 run, the two attempts of bin 1
observe different live terminal counts (2, then 3 after the sibling
branched mid-bin), so attempts within one bin do not all see the
start-of-bin n_i. -/
theorem claim_C1_counterexample :
    grow omega0 st1 = .ok stE ∧
    stE.log = [⟨0, 0, 1, 1⟩, ⟨1, 1, 2, 1⟩, ⟨1, 2, 3, 1⟩] ∧
    ¬(∀ a ∈ stE.log, ∀ b ∈ stE.log, a.bin = b.bin →
        a.nI = b.nI ∧ a.cinv = b.cinv) := by
  refine ⟨grow_eval, rfl, ?_⟩
  intro hall
  have h := hall ⟨1, 1, 2, 1⟩ (by norm_num [stE]) ⟨1, 2, 3, 1⟩
    (by norm_num [stE]) rfl
  have h2 : (2 : ℕ) = 3 := h.1
  norm_num at h2

/-- C1 (amended): what the code does freeze per bin is the attempt list:
a successful sweep of bin t appends exactly one ghost attempt per element
of the snapshot list, in order, all tagged with bin t — but each attempt
reads the live terminal count and normalization constant at its own
moment (the per-attempt reading is the branch_log equation used in the
induction). -/
theorem claim_C1_snapshot_is_attempt_list (ω : ℕ → ℝ) (t : ℤ) :
    ∀ (l : List ℕ) (s s2 : St), binSweep ω t l s = .ok s2 →
      ∃ atts : List Attempt, s2.log = s.log ++ atts ∧
        atts.map (fun a => a.seg) = l ∧
        atts.map (fun a => a.bin) = l.map (fun _ => t) := by
  intro l
  induction l with
  | nil =>
    intro s s2 h
    refine ⟨[], ?_, rfl, rfl⟩
    unfold binSweep at h
    injection h with h
    subst h
    simp
  | cons x rest ih =>
    intro s s2 h
    unfold binSweep at h
    obtain ⟨s1, h1, h⟩ := bind_ok h
    obtain ⟨atts, hlog, hsegs, hbins⟩ := ih s1 s2 h
    refine ⟨⟨t, x, s.tree.terminal.length,
      branching_probability_normalization_constant s.tree⟩ :: atts, ?_, ?_, ?_⟩
    · rw [hlog, branch_log h1, List.append_assoc]
      rfl
    · rw [List.map_cons, hsegs]
    · rw [List.map_cons, hbins]
      rfl

/-- Witness for the amended C1 on the bin-1 sweep of the omega0 run. -/
theorem claim_C1_snapshot_witness :
    ∃ atts : List Attempt, stC.log = stA.log ++ atts ∧
      atts.map (fun a => a.seg) = [1, 2] ∧
      atts.map (fun a => a.bin) = ([1, 2] : List ℕ).map (fun _ => (1 : ℤ)) :=
  claim_C1_snapshot_is_attempt_list omega0 1 [1, 2] stA stC sweep1_eval

/-! Claim C2: what the aggregator accumulates per key. -/

theorem sumsAfter_pointwise (fn : α → Dict κ) (k : κ) :
    ∀ (argset : List α) (acc : Dict κ),
      (argset.foldl (fun acc a => mergeD acc (fn a)) acc) k =
        argset.foldl (stepK fn k) (acc k) := by
  intro argset
  induction argset with
  | nil => intro acc; rfl
  | cons a rest ih =>
    intro acc
    rw [List.foldl_cons, List.foldl_cons, ih]
    rfl

theorem stepK_none_of_none {fn : α → Dict κ} {k : κ} {a : α}
    (h : fn a k = none) : ∀ o, stepK fn k o a = o := by
  intro o
  cases o <;> simp [stepK, h]

theorem stepK_some_list {fn : α → Dict κ} {k : κ} {a : α} {l : List ℝ}
    (h : fn a k = some (.list l)) :
    (∀ L, stepK fn k (some (.list L)) a = some (.list (L ++ l))) ∧
    stepK fn k none a = some (.list l) := by
  constructor
  · intro L
    simp [stepK, h, add_listified, PyVal.toL]
  · simp [stepK, h]

theorem listFold_spec (fn : α → Dict κ) (k : κ) :
    ∀ argset : List α,
      (∀ a ∈ argset, ∀ v, fn a k = some v → ∃ l, v = .list l) →
      (∀ L : List ℝ,
        argset.foldl (stepK fn k) (some (.list L)) =
          some (.list (L ++ (contribLists fn argset k).flatten))) ∧
      (contribLists fn argset k = [] →
        argset.foldl (stepK fn k) none = none) ∧
      (contribLists fn argset k ≠ [] →
        argset.foldl (stepK fn k) none =
          some (.list (contribLists fn argset k).flatten)) := by
  intro argset
  induction argset with
  | nil =>
    intro _
    exact ⟨fun L => by simp [contribLists], fun _ => rfl, fun hne => absurd rfl hne⟩
  | cons a rest ih =>
    intro hall
    obtain ⟨ih1, ih2, ih3⟩ := ih (fun x hx => hall x (List.mem_cons_of_mem a hx))
    cases hfa : fn a k with
    | none =>
      have hcon : contribLists fn (a :: rest) k = contribLists fn rest k := by
        simp [contribLists, List.filterMap_cons, hfa]
      have hstep := stepK_none_of_none hfa
      refine ⟨fun L => ?_, fun he => ?_, fun hne => ?_⟩
      · rw [List.foldl_cons, hstep, hcon]
        exact ih1 L
      · rw [hcon] at he
        rw [List.foldl_cons, hstep]
        exact ih2 he
      · rw [hcon] at hne ⊢
        rw [List.foldl_cons, hstep]
        exact ih3 hne
    | some v =>
      obtain ⟨l, hv⟩ := hall a (List.mem_cons_self a rest) v hfa
      subst hv
      have hcon : contribLists fn (a :: rest) k = l :: contribLists fn rest k := by
        simp [contribLists, List.filterMap_cons, hfa]
      obtain ⟨hsL, hsn⟩ := stepK_some_list hfa
      refine ⟨fun L => ?_, fun he => ?_, fun _ => ?_⟩
      · rw [List.foldl_cons, hsL L, ih1 (L ++ l), hcon]
        simp [List.flatten_cons, List.append_assoc]
      · rw [hcon] at he
        exact absurd he (List.cons_ne_nil _ _)
      · rw [List.foldl_cons, hsn, ih1 l, hcon]
        simp [List.flatten_cons]

/-- C2 is false as stated: with two runs both reporting lists under key 0
([1, 2] and [3]), the accumulator ends as the flat list [1, 2, 3] — the
nested lists are concatenated by add_listified, so the accumulator length
is 3, not the number of contributing runs (2). -/
theorem claim_C2_counterexample :
    sumsAfter fn2 [0, 1] 0 = some (.list [1, 2, 3]) ∧
    (([0, 1] : List ℕ).filter (fun a => (fn2 a 0).isSome)).length = 2 ∧
    ([1, 2, 3] : List ℝ).length ≠
      (([0, 1] : List ℕ).filter (fun a => (fn2 a 0).isSome)).length := by
  refine ⟨?_, ?_, ?_⟩
  · simp only [sumsAfter, List.foldl_cons, List.foldl_nil]
    norm_num [mergeD, fn2, add_listified, PyVal.toL]
  · norm_num [fn2, List.filter]
  · norm_num [fn2, List.filter]

/-- C2 (amended): when every run's value under key k is a list, the
accumulator for k after the run loop is the concatenation (flattening) of
the contributed lists in run order — one element per data point, not one
nested element per run — and the key is absent when no run contributed. -/
theorem claim_C2_accumulator_flattens (α κ : Type) (fn : α → Dict κ)
    (argset : List α) (k : κ)
    (hall : ∀ a ∈ argset, ∀ v, fn a k = some v → ∃ l, v = .list l) :
    (contribLists fn argset k = [] → sumsAfter fn argset k = none) ∧
    (contribLists fn argset k ≠ [] →
      sumsAfter fn argset k =
        some (.list (contribLists fn argset k).flatten)) := by
  have h0 : sumsAfter fn argset k = argset.foldl (stepK fn k) none :=
    sumsAfter_pointwise fn k argset (fun _ => none)
  obtain ⟨_, h2, h3⟩ := listFold_spec fn k argset hall
  exact ⟨fun he => h0.trans (h2 he), fun hne => h0.trans (h3 hne)⟩

/-- Witness for the amended C2 on the two-run probe mapping. -/
theorem claim_C2_flattens_witness :
    (contribLists fn2 [0, 1] 0 = [] → sumsAfter fn2 [0, 1] 0 = none) ∧
    (contribLists fn2 [0, 1] 0 ≠ [] →
      sumsAfter fn2 [0, 1] 0 =
        some (.list (contribLists fn2 [0, 1] 0).flatten)) :=
  claim_C2_accumulator_flattens ℕ ℕ fn2 [0, 1] 0 (by
    intro a _ v hv
    by_cases h0 : a = 0
    · subst h0
      simp only [fn2, if_pos rfl] at hv
      injection hv with h
      exact ⟨[1, 2], h.symm⟩
    · simp only [fn2, if_pos rfl, if_neg h0] at hv
      injection hv with h
      exact ⟨[3], h.symm⟩)

/-! Claim C3: construction-time validation of the distribution inputs. -/

/-- C3 is false as stated: construction with sd_in = -1 ≤ 0 does not fail
at all — DendriticTree.__init__ only squares the inputs (raising
ZeroDivisionError on zero) and succeeds, because no eager sign validation
exists in the code. -/
theorem claim_C3_counterexample :
    mkDendriticTree omega1 1 1 0 1 0 0 1 (-1) 0 1 1 0 1 1 = .ok stNeg ∧
    (-1 : ℝ) ≤ 0 := by
  refine ⟨?_, by norm_num⟩
  unfold mkDendriticTree deriveBeta deriveGamma newSegment gammavariate
  norm_num [omega1, stNeg, paramsD, Bind.bind, Except.bind]

/-- C3 (amended): construction performs no eager sign validation: it
succeeds for any nonzero means/sds of the be and e distributions
(whatever their sign) provided the initial-length distribution yields a
positive shape and scale for the root's immediate sample, and the derived
parameters it stores are shape = (mean/sd)^2 and scale = sd^2/mean. -/
theorem claim_C3_construction_no_eager_validation (ω : ℕ → ℝ)
    (B E S : ℝ) (N_be : ℕ) (N_e o1 m1 d1 o2 m2 d2 o3 m3 d3 : ℝ)
    (hm1 : 0 < m1) (hd1 : d1 ≠ 0) (hm2 : m2 ≠ 0) (hd2 : d2 ≠ 0)
    (hm3 : m3 ≠ 0) (hd3 : d3 ≠ 0) :
    mkDendriticTree ω B E S N_be N_e o1 m1 d1 o2 m2 d2 o3 m3 d3 =
      .ok ⟨⟨⟨B, E, S, N_be, N_e, o1, d1 ^ 2 / m1, (m1 / d1) ^ 2,
             o2, d2 ^ 2 / m2, (m2 / d2) ^ 2, o3, d3 ^ 2 / m3, (m3 / d3) ^ 2⟩,
            [⟨0, 1, none, none, 0, ω 0 + o1, 0⟩], [0], [], some 0⟩, 1, []⟩ := by
  have hq : (0:ℝ) < (m1 / d1) ^ 2 :=
    lt_of_le_of_ne (sq_nonneg _)
      (Ne.symm (pow_ne_zero 2 (div_ne_zero (ne_of_gt hm1) hd1)))
  have hd1sq : (0:ℝ) < d1 ^ 2 :=
    lt_of_le_of_ne (sq_nonneg _) (Ne.symm (pow_ne_zero 2 hd1))
  have hb : (0:ℝ) < d1 ^ 2 / m1 := div_pos hd1sq hm1
  have hcond : ¬((m1 / d1) ^ 2 ≤ 0 ∨ d1 ^ 2 / m1 ≤ 0) := by
    push_neg
    exact ⟨hq, hb⟩
  unfold mkDendriticTree deriveBeta deriveGamma newSegment gammavariate
  simp only [if_neg (ne_of_gt hm1), if_neg hd1, if_neg hm2, if_neg hd2,
    if_neg hm3, if_neg hd3, if_neg hcond, Bind.bind, Except.bind,
    List.nil_append, List.length_nil]

/-- Witness for the amended C3 with negative be/e inputs (sign ignored). -/
theorem claim_C3_construction_witness :
    mkDendriticTree omega1 1 1 0 1 0 0 2 1 0 (-1) 1 0 1 (-2) =
      .ok ⟨⟨⟨1, 1, 0, 1, 0, 0, 1 ^ 2 / 2, (2 / 1) ^ 2,
             0, 1 ^ 2 / (-1), ((-1) / 1) ^ 2, 0, (-2) ^ 2 / 1, (1 / (-2)) ^ 2⟩,
            [⟨0, 1, none, none, 0, omega1 0 + 0, 0⟩], [0], [], some 0⟩, 1, []⟩ :=
  claim_C3_construction_no_eager_validation omega1 1 1 0 1 0 0 2 1 0 (-1) 1 0 1 (-2)
    (by norm_num) (by norm_num) (by norm_num) (by norm_num) (by norm_num)
    (by norm_num)

/-! Claim C4: how aggregation failures surface. -/

theorem map_with_stats_fail {α κ : Type} (fn : α → Dict κ) (argset : List α)
    (hex : ∃ k v, sumsAfter fn argset k = some v ∧ statsFails v) :
    map_with_stats fn argset = .error (.invalidModelParam, argset.head?) := by
  unfold map_with_stats
  dsimp only
  split
  · rfl
  · rename_i hneg
    exact absurd hex hneg

theorem statsOf_num (x : ℝ) : statsOf (.num x) = .error .typeError := by
  simp [statsOf, pySum, Bind.bind, Except.bind]

theorem pyMean_single (x : ℝ) : pyMean (.list [x]) = .ok x := by
  simp only [pyMean]
  rw [if_neg (List.cons_ne_nil x [])]
  norm_num

theorem pyMedian_single (x : ℝ) : pyMedian (.list [x]) = .ok x := by
  simp only [pyMedian]
  rw [if_neg (List.cons_ne_nil x [])]
  norm_num [List.mergeSort, List.getD]

theorem pyStdev_single (x : ℝ) : pyStdev (.list [x]) = .error .statisticsError := by
  simp only [pyStdev]
  rw [if_pos (show ([x] : List ℝ).length < 2 by norm_num)]

theorem statsOf_single_list (x : ℝ) :
    statsOf (.list [x]) = .error .statisticsError := by
  simp [statsOf, pySum, pyMean_single, pyMedian_single, pyStdev_single,
    Bind.bind, Except.bind]

/-- C4 is false in its identification clause: the failing key 1 is
contributed only by the second argument set (20), yet the error identifies
argset[0] = 10 — the code prints the first argument set, not the one that
triggered the failure. -/
theorem claim_C4_counterexample :
    map_with_stats fn4 [10, 20] = .error (.invalidModelParam, some 10) ∧
    fn4 10 1 = none ∧ fn4 20 1 = some (.num 3) ∧ (10 : ℕ) ≠ 20 := by
  refine ⟨?_, by norm_num [fn4], by norm_num [fn4], by norm_num⟩
  have hs : sumsAfter fn4 [10, 20] 1 = some (.num 3) := by
    simp only [sumsAfter, List.foldl_cons, List.foldl_nil]
    norm_num [mergeD, fn4]
  simpa using map_with_stats_fail fn4 [10, 20]
    ⟨1, .num 3, hs, .typeError, statsOf_num 3⟩

/-- C4 (amended): any per-key statistics failure makes the aggregator
raise the model-parameter error (never dropping the metric or substituting
a default), but the argument set it identifies is always argset[0], the
first one; in particular an n = 1 ensemble fails both on a scalar metric
(sum raises) and on a singleton-list metric (stdev needs two samples). -/
theorem claim_C4_fail_prints_first :
    (∀ (α κ : Type) (fn : α → Dict κ) (argset : List α),
      (∃ k v, sumsAfter fn argset k = some v ∧ statsFails v) →
      map_with_stats fn argset = .error (.invalidModelParam, argset.head?)) ∧
    (∀ (α κ : Type) (fn : α → Dict κ) (a : α) (k : κ) (x : ℝ),
      fn a k = some (.num x) →
      map_with_stats fn [a] = .error (.invalidModelParam, some a)) ∧
    (∀ (α κ : Type) (fn : α → Dict κ) (a : α) (k : κ) (x : ℝ),
      fn a k = some (.list [x]) →
      map_with_stats fn [a] = .error (.invalidModelParam, some a)) := by
  refine ⟨fun α κ fn argset hex => map_with_stats_fail fn argset hex, ?_, ?_⟩
  · intro α κ fn a k x hx
    have hs : sumsAfter fn [a] k = some (.num x) := by
      simp only [sumsAfter, List.foldl_cons, List.foldl_nil]
      simp [mergeD, hx]
    simpa using map_with_stats_fail fn [a]
      ⟨k, .num x, hs, .typeError, statsOf_num x⟩
  · intro α κ fn a k x hx
    have hs : sumsAfter fn [a] k = some (.list [x]) := by
      simp only [sumsAfter, List.foldl_cons, List.foldl_nil]
      simp [mergeD, hx]
    simpa using map_with_stats_fail fn [a]
      ⟨k, .list [x], hs, .statisticsError, statsOf_single_list x⟩

/-- Witness for the amended C4 on a concrete one-run scalar ensemble. -/
theorem claim_C4_fail_witness :
    map_with_stats (fun (_ : ℕ) (_ : ℕ) => some (PyVal.num 3)) [7] =
      .error (.invalidModelParam, some 7) :=
  claim_C4_fail_prints_first.2.1 ℕ ℕ (fun _ _ => some (PyVal.num 3)) 7 0 3 rfl

/-! Claim C9: the morphology importer round-trip. Helper lemmas about the
arena under the importer's operations. -/

theorem tree_eq {t1 t2 : Tree} (hp : t1.params = t2.params)
    (hs : t1.segs = t2.segs) (ht : t1.terminal = t2.terminal)
    (hi : t1.intermediate = t2.intermediate) (hr : t1.root = t2.root) :
    t1 = t2 := by
  cases t1
  cases t2
  dsimp only at hp hs ht hi hr
  subst hp hs ht hi hr
  rfl

theorem set_append_last {α : Type} (l : List α) (x v : α) :
    (l ++ [x]).set l.length v = l ++ [v] := by
  induction l with
  | nil => rfl
  | cons a rest ih => simp [List.set_cons_succ, ih]

/-- In a well-formed arena, the leaf list of an in-range subtree is never
empty. -/
theorem leaves_ne_nil {tr : Tree} (hwf : Wf tr) :
    ∀ k i, tr.segs.length - i ≤ k → i < tr.segs.length → leaves tr i ≠ [] := by
  intro k
  induction k with
  | zero => intro i h1 h2; omega
  | succ f ih =>
    intro i h1 hi
    rw [leaves_unfold hwf hi]
    cases hc : (tr.seg i).children with
    | none => simp
    | some ab =>
      obtain ⟨a, b⟩ := ab
      obtain ⟨hia, _, ha, _, _⟩ := hwf.children_lt i a b hc
      dsimp only
      intro hnil
      exact ih a (by omega) ha (List.append_eq_nil.mp hnil).1

/-- Leaf lists only read the children links of the subtree, so they agree
between two arenas that agree on children over the reference arena's
range above m. -/
theorem leavesFuel_agree_between {tr tr2 : Tree} (hwf : Wf tr) (m : ℕ)
    (hch : ∀ j, m ≤ j → j < tr.segs.length →
      (tr2.seg j).children = (tr.seg j).children) :
    ∀ fuel i, m ≤ i → i < tr.segs.length →
      leavesFuel tr2 fuel i = leavesFuel tr fuel i := by
  intro fuel
  induction fuel with
  | zero => intro i _ _; rfl
  | succ f ih =>
    intro i hm hi
    simp only [leavesFuel, hch i hm hi]
    cases hc : (tr.seg i).children with
    | none => rfl
    | some ab =>
      obtain ⟨a, b⟩ := ab
      obtain ⟨hia, hib, ha, hb, _⟩ := hwf.children_lt i a b hc
      dsimp only
      rw [ih a (by omega) ha, ih b (by omega) hb]

theorem leaves_agree_between {tr tr2 : Tree} (hwf : Wf tr) (hwf2 : Wf tr2)
    (m : ℕ)
    (hch : ∀ j, m ≤ j → j < tr.segs.length →
      (tr2.seg j).children = (tr.seg j).children)
    {i : ℕ} (hm : m ≤ i) (hi : i < tr.segs.length)
    (hi2 : i < tr2.segs.length) : leaves tr2 i = leaves tr i := by
  rw [leaves, leaves,
    leavesFuel_congr hwf2 _ (tr.segs.length + tr2.segs.length) i hi2 le_rfl
      (by omega),
    leavesFuel_congr hwf _ (tr.segs.length + tr2.segs.length) i hi le_rfl
      (by omega),
    leavesFuel_agree_between hwf m hch _ i hm hi]

/-- Appending a fresh childless segment whose parent link points into the
existing arena preserves well-formedness. -/
theorem wf_append {tr : Tree} (hwf : Wf tr) {sg : Seg}
    (hc : sg.children = none)
    (hp : ∀ p, sg.parent = some p → p < tr.segs.length) :
    Wf { tr with segs := tr.segs ++ [sg] } := by
  have hseg : ∀ j, ({ tr with segs := tr.segs ++ [sg] } : Tree).seg j =
      if j < tr.segs.length then tr.seg j
      else if j = tr.segs.length then sg else default := by
    intro j
    show (tr.segs ++ [sg]).getD j default = _
    by_cases h1 : j < tr.segs.length
    · rw [getD_append_left _ _ h1, if_pos h1]
      rfl
    · rw [getD_append_right _ _ (by omega), if_neg h1]
      by_cases h2 : j = tr.segs.length
      · rw [if_pos h2, h2, Nat.sub_self]
        rfl
      · rw [if_neg h2]
        apply getD_out
        simp only [List.length_singleton]
        omega
  have hlen : ({ tr with segs := tr.segs ++ [sg] } : Tree).segs.length =
      tr.segs.length + 1 := by
    show (tr.segs ++ [sg]).length = _
    rw [List.length_append, List.length_singleton]
  constructor
  · intro i a b hcc
    rw [hseg i] at hcc
    rw [hlen]
    by_cases h1 : i < tr.segs.length
    · rw [if_pos h1] at hcc
      obtain ⟨g1, g2, g3, g4, g5⟩ := hwf.children_lt i a b hcc
      exact ⟨g1, g2, by omega, by omega, g5⟩
    · rw [if_neg h1] at hcc
      by_cases h2 : i = tr.segs.length
      · rw [if_pos h2, hc] at hcc
        exact Option.noConfusion hcc
      · rw [if_neg h2] at hcc
        exact Option.noConfusion hcc
  · intro i p hpp
    rw [hseg i] at hpp
    by_cases h1 : i < tr.segs.length
    · rw [if_pos h1] at hpp
      exact hwf.parent_lt i p hpp
    · rw [if_neg h1] at hpp
      by_cases h2 : i = tr.segs.length
      · rw [if_pos h2] at hpp
        have := hp p hpp
        omega
      · rw [if_neg h2] at hpp
        exact Option.noConfusion hpp
  · intro i a b hcc
    rw [hseg i] at hcc
    by_cases h1 : i < tr.segs.length
    · rw [if_pos h1] at hcc
      obtain ⟨_, _, g3, g4, _⟩ := hwf.children_lt i a b hcc
      obtain ⟨q1, q2⟩ := hwf.children_parent i a b hcc
      constructor
      · rw [hseg a, if_pos g3]
        exact q1
      · rw [hseg b, if_pos g4]
        exact q2
    · rw [if_neg h1] at hcc
      by_cases h2 : i = tr.segs.length
      · rw [if_pos h2, hc] at hcc
        exact Option.noConfusion hcc
      · rw [if_neg h2] at hcc
        exact Option.noConfusion hcc

/-- Linking two existing forward nodes (that already point back to i) as
the children of a previously childless node preserves well-formedness. -/
theorem wf_set_children {tr : Tree} (hwf : Wf tr) {i a b : ℕ}
    (hia : i < a) (hib : i < b) (ha : a < tr.segs.length)
    (hb : b < tr.segs.length) (hab : a ≠ b)
    (hpa : (tr.seg a).parent = some i) (hpb : (tr.seg b).parent = some i) :
    Wf { tr with
      segs := tr.segs.set i { tr.seg i with children := some (a, b) } } := by
  have hilt : i < tr.segs.length := by omega
  have hseg : ∀ j,
      ({ tr with segs :=
          tr.segs.set i { tr.seg i with children := some (a, b) } } : Tree).seg j =
        if j = i then { tr.seg i with children := some (a, b) }
        else tr.seg j := by
    intro j
    show (tr.segs.set i { tr.seg i with children := some (a, b) }).getD j default = _
    rw [seg_set]
    by_cases h1 : j = i
    · rw [if_pos ⟨h1, hilt⟩, if_pos h1]
    · rw [if_neg (by simp [h1]), if_neg h1]
  have hlen :
      ({ tr with segs :=
          tr.segs.set i { tr.seg i with children := some (a, b) } } : Tree).segs.length =
        tr.segs.length := by
    show (tr.segs.set i { tr.seg i with children := some (a, b) }).length = _
    rw [List.length_set]
  constructor
  · intro j x y hcc
    rw [hseg j] at hcc
    rw [hlen]
    by_cases h1 : j = i
    · rw [if_pos h1] at hcc
      simp only at hcc
      injection hcc with hcc
      injection hcc with h1' h2'
      subst h1
      rw [← h1', ← h2']
      exact ⟨hia, hib, ha, hb, hab⟩
    · rw [if_neg h1] at hcc
      exact hwf.children_lt j x y hcc
  · intro j p hpp
    rw [hseg j] at hpp
    by_cases h1 : j = i
    · rw [if_pos h1] at hpp
      subst h1
      exact hwf.parent_lt j p hpp
    · rw [if_neg h1] at hpp
      exact hwf.parent_lt j p hpp
  · intro j x y hcc
    rw [hseg j] at hcc
    by_cases h1 : j = i
    · rw [if_pos h1] at hcc
      simp only at hcc
      injection hcc with hcc
      have hxy : x = a ∧ y = b := by
        injection hcc with h1' h2'
        exact ⟨h1'.symm, h2'.symm⟩
      obtain ⟨rfl, rfl⟩ := hxy
      subst h1
      constructor
      · rw [hseg x, if_neg (by omega)]
        exact hpa
      · rw [hseg y, if_neg (by omega)]
        exact hpb
    · rw [if_neg h1] at hcc
      obtain ⟨q1, q2⟩ := hwf.children_parent j x y hcc
      constructor
      · by_cases h2 : x = i
        · rw [hseg x, if_pos h2]
          subst h2
          exact q1
        · rw [hseg x, if_neg h2]
          exact q1
      · by_cases h2 : y = i
        · rw [hseg y, if_pos h2]
          subst h2
          exact q2
        · rw [hseg y, if_neg h2]
          exact q2

/-- A newSegment call followed by an overwrite of the fresh segment is an
append of the rewritten segment. -/
theorem newSegment_set {ω : ℕ → ℝ} {ord : ℕ} {par : Option ℕ} {t : ℤ}
    {s : St} {i : ℕ} {sN : St} (h : newSegment ω ord par t s = .ok (i, sN))
    (f : Seg → Seg) :
    i = s.tree.segs.length ∧
    (sN.setSeg i f).tree.segs = s.tree.segs ++
      [f ⟨ord, 1, par, none, t, ω s.ix + s.tree.params.alpha_in, 0⟩] ∧
    (sN.setSeg i f).tree.params = s.tree.params ∧
    (sN.setSeg i f).tree.terminal = s.tree.terminal ∧
    (sN.setSeg i f).tree.intermediate = s.tree.intermediate ∧
    (sN.setSeg i f).tree.root = s.tree.root ∧
    (sN.setSeg i f).ix = s.ix + 1 ∧ (sN.setSeg i f).log = s.log := by
  obtain ⟨hi, hix, hlog, hparams, hterm, hint, hroot, hsegs, _⟩ :=
    newSegment_ok h
  have hi2 : i = s.tree.segs.length := hi
  have hsegs2 : sN.tree.segs = s.tree.segs ++
      [⟨ord, 1, par, none, t, ω s.ix + s.tree.params.alpha_in, 0⟩] := hsegs
  have hseg_i : sN.tree.seg i =
      ⟨ord, 1, par, none, t, ω s.ix + s.tree.params.alpha_in, 0⟩ := by
    show sN.tree.segs.getD i default = _
    rw [hsegs2, hi2, getD_append_right _ _ le_rfl, Nat.sub_self]
    rfl
  refine ⟨hi2, ?_, hparams, hterm, hint, hroot, hix, hlog⟩
  show sN.tree.segs.set i (f (sN.tree.seg i)) = _
  rw [hseg_i, hsegs2, hi2, set_append_last]

theorem seg_append {tr : Tree} (sg : Seg) (j : ℕ) :
    ({ tr with segs := tr.segs ++ [sg] } : Tree).seg j =
      if j < tr.segs.length then tr.seg j
      else if j = tr.segs.length then sg else default := by
  show (tr.segs ++ [sg]).getD j default = _
  by_cases h1 : j < tr.segs.length
  · rw [getD_append_left _ _ h1, if_pos h1]
    rfl
  · rw [getD_append_right _ _ (by omega), if_neg h1]
    by_cases h2 : j = tr.segs.length
    · rw [if_pos h2, h2, Nat.sub_self]
      rfl
    · rw [if_neg h2]
      apply getD_out
      simp only [List.length_singleton]
      omega

/-- What one trace call guarantees: the returned index is the next free
arena slot, the old prefix is untouched, links stay well formed, and the
new terminal/intermediate entries carry the traced subtree's leaf count
and edge-length sum (the accumulated chain prefix acc included). -/
structure TraceOut (ls : LineSeg) (par : Option ℕ) (acc : ℝ)
    (s : St) (r : ℕ) (s2 : St) : Prop where
  hr : r = s.tree.segs.length
  hlen : s.tree.segs.length < s2.tree.segs.length
  hparams : s2.tree.params = s.tree.params
  hroot : s2.tree.root = s.tree.root
  hpre : ∀ j, j < s.tree.segs.length → s2.tree.seg j = s.tree.seg j
  hwf : Wf s2.tree
  hrpar : (s2.tree.seg r).parent = par
  spec : ∃ nt ni : List ℕ,
    s2.tree.terminal = s.tree.terminal ++ nt ∧
    s2.tree.intermediate = s.tree.intermediate ++ ni ∧
    (∀ j ∈ nt, s.tree.segs.length ≤ j ∧ j < s2.tree.segs.length) ∧
    (∀ j ∈ ni, s.tree.segs.length ≤ j ∧ j < s2.tree.segs.length) ∧
    leaves s2.tree r = nt ∧
    nt.length = ls.leafCt ∧
    (nt.map (fun j => (s2.tree.seg j).total_len)).sum +
      (ni.map (fun j => (s2.tree.seg j).total_len)).sum = acc + ls.totalLen

theorem traceOut_of_tree_eq {ls : LineSeg} {par : Option ℕ} {acc : ℝ}
    {s : St} {r : ℕ} {s2 s2' : St} (heq : s2'.tree = s2.tree)
    (h : TraceOut ls par acc s r s2) : TraceOut ls par acc s r s2' :=
  ⟨h.hr, by rw [heq]; exact h.hlen, by rw [heq]; exact h.hparams,
   by rw [heq]; exact h.hroot, by rw [heq]; exact h.hpre,
   by rw [heq]; exact h.hwf, by rw [heq]; exact h.hrpar,
   by rw [heq]; exact h.spec⟩

/-- Full specification of the importer's recursive trace on well-formed
(at most binary) line-segment trees. -/
theorem trace_spec {ω : ℕ → ℝ} {ls : LineSeg} (hls : LineSeg.Wf ls) :
    ∀ (par : Option ℕ) (pord : ℕ) (acc : ℝ) (s : St) (r : ℕ) (s2 : St),
      trace ω ls par pord acc s = .ok (r, s2) → Wf s.tree →
      (∀ p, par = some p → p < s.tree.segs.length) →
      TraceOut ls par acc s r s2 := by
  induction hls with
  | mk len cs hcsle hcswf ih =>
    match cs, hcsle, hcswf, ih with
    | [], _, _, _ =>
      intro par pord acc s r s2 h hwfS hp
      simp only [trace] at h
      obtain ⟨⟨i, sN⟩, hN, h⟩ := bind_ok h
      dsimp only at h
      obtain ⟨hi, hsegsI0, hparamsI, htermI, hintI, hrootI, hixI, hlogI⟩ :=
        newSegment_set hN (fun sg => { sg with initial_len := acc + len })
      have hsegsI : (sN.setSeg i
          (fun sg => { sg with initial_len := acc + len })).tree.segs =
          s.tree.segs ++ [⟨pord + 1, 1, par, none, 0, acc + len, 0⟩] := by
        rw [hsegsI0]
      injection h with h
      injection h with hri hs2
      subst hri
      subst hs2
      refine @traceOut_of_tree_eq _ _ _ _ _
        ⟨{ s.tree with
            segs := s.tree.segs ++ [⟨pord + 1, 1, par, none, 0, acc + len, 0⟩],
            terminal := s.tree.terminal ++ [i] }, 0, []⟩ _
        (tree_eq hparamsI hsegsI (by rw [htermI]) hintI hrootI) ?_
      have hlenR : ({ s.tree with
          segs := s.tree.segs ++ [⟨pord + 1, 1, par, none, 0, acc + len, 0⟩],
          terminal := s.tree.terminal ++ [i] } : Tree).segs.length =
            s.tree.segs.length + 1 := by
        show (s.tree.segs ++ _).length = _
        rw [List.length_append, List.length_singleton]
      have hsegR : ∀ j, ({ s.tree with
          segs := s.tree.segs ++ [⟨pord + 1, 1, par, none, 0, acc + len, 0⟩],
          terminal := s.tree.terminal ++ [i] } : Tree).seg j =
            if j < s.tree.segs.length then s.tree.seg j
            else if j = s.tree.segs.length then
              ⟨pord + 1, 1, par, none, 0, acc + len, 0⟩
            else default := fun j => seg_append _ j
      have hwfR : Wf { s.tree with
          segs := s.tree.segs ++ [⟨pord + 1, 1, par, none, 0, acc + len, 0⟩],
          terminal := s.tree.terminal ++ [i] } :=
        @wf_shape
          { s.tree with
            segs := s.tree.segs ++ [⟨pord + 1, 1, par, none, 0, acc + len, 0⟩] }
          { s.tree with
            segs := s.tree.segs ++ [⟨pord + 1, 1, par, none, 0, acc + len, 0⟩],
            terminal := s.tree.terminal ++ [i] }
          rfl (fun _ => rfl) (fun _ => rfl) (wf_append hwfS rfl hp)
      have hsegRi : ({ s.tree with
          segs := s.tree.segs ++ [⟨pord + 1, 1, par, none, 0, acc + len, 0⟩],
          terminal := s.tree.terminal ++ [i] } : Tree).seg i =
            ⟨pord + 1, 1, par, none, 0, acc + len, 0⟩ := by
        rw [hsegR i, if_neg (by omega), if_pos hi]
      refine ⟨hi, by rw [hlenR]; omega, rfl, rfl, ?_, hwfR, ?_, ?_⟩
      · intro j hj
        rw [hsegR j, if_pos hj]
      · rw [hsegRi]
      · refine ⟨[i], [], rfl, (List.append_nil _).symm, ?_, ?_, ?_, rfl, ?_⟩
        · intro j hj
          simp only [List.mem_cons, List.not_mem_nil, or_false] at hj
          subst hj
          rw [hlenR]
          omega
        · intro j hj
          exact absurd hj (List.not_mem_nil j)
        · exact leaves_none hwfR (by rw [hlenR]; omega) (by rw [hsegRi])
        · simp only [List.map_cons, List.map_nil, List.sum_cons, List.sum_nil]
          rw [hsegRi]
          simp only [Seg.total_len, LineSeg.totalLen]
          ring
    | [c0], _, hcswf, ih =>
      intro par pord acc s r s2 h hwfS hp
      simp only [trace] at h
      have out := ih c0 (List.mem_cons_self c0 []) par pord (acc + len) s r s2
        h hwfS hp
      refine ⟨out.hr, out.hlen, out.hparams, out.hroot, out.hpre, out.hwf,
        out.hrpar, ?_⟩
      obtain ⟨nt, ni, h1, h2, h3, h4, h5, h6, h7⟩ := out.spec
      refine ⟨nt, ni, h1, h2, h3, h4, h5, ?_, ?_⟩
      · rw [h6]
        rfl
      · rw [h7]
        rw [show LineSeg.totalLen (.node len [c0]) = len + c0.totalLen from rfl]
        ring
    | [c0, c1], _, hcswf, ih =>
      intro par pord acc s r s2 h hwfS hp
      simp only [trace] at h
      obtain ⟨⟨i, sN⟩, hN, h⟩ := bind_ok h
      dsimp only at h
      obtain ⟨hi, hsegsI0, hparamsI, htermI, hintI, hrootI, hixI, hlogI⟩ :=
        newSegment_set hN (fun sg => { sg with initial_len := acc + len })
      have hsegsI : (sN.setSeg i
          (fun sg => { sg with initial_len := acc + len })).tree.segs =
          s.tree.segs ++ [⟨pord + 1, 1, par, none, 0, acc + len, 0⟩] := by
        rw [hsegsI0]
      obtain ⟨⟨a, sA⟩, hA, h⟩ := bind_ok h
      dsimp only at h
      obtain ⟨⟨b, sB⟩, hB, h⟩ := bind_ok h
      dsimp only at h
      injection h with h
      injection h with hri hs2
      subst hri
      subst hs2
      have hsItree : (sN.setSeg i
          (fun sg => { sg with initial_len := acc + len })).tree =
          { s.tree with segs :=
              s.tree.segs ++ [⟨pord + 1, 1, par, none, 0, acc + len, 0⟩] } :=
        tree_eq hparamsI hsegsI htermI hintI hrootI
      have hsIlen : (sN.setSeg i
          (fun sg => { sg with initial_len := acc + len })).tree.segs.length =
          s.tree.segs.length + 1 := by
        rw [hsItree]
        show (s.tree.segs ++ _).length = _
        rw [List.length_append, List.length_singleton]
      have hsegI : ∀ j, (sN.setSeg i
          (fun sg => { sg with initial_len := acc + len })).tree.seg j =
            if j < s.tree.segs.length then s.tree.seg j
            else if j = s.tree.segs.length then
              ⟨pord + 1, 1, par, none, 0, acc + len, 0⟩
            else default := by
        intro j
        rw [hsItree]
        exact seg_append _ j
      have hwfI : Wf (sN.setSeg i
          (fun sg => { sg with initial_len := acc + len })).tree := by
        rw [hsItree]
        exact wf_append hwfS rfl hp
      have hpI : ∀ p, some i = some p → p < (sN.setSeg i
          (fun sg => { sg with initial_len := acc + len })).tree.segs.length := by
        intro p hp'
        injection hp' with hp'
        subst hp'
        rw [hsIlen]
        omega
      have outA := ih c0 (List.mem_cons_self c0 [c1]) (some i) _ 0 _ a sA hA
        hwfI hpI
      have houtAlen := outA.hlen
      rw [hsIlen] at houtAlen
      have hpA : ∀ p, some i = some p → p < sA.tree.segs.length := by
        intro p hp'
        injection hp' with hp'
        subst hp'
        omega
      have outB := ih c1 (List.mem_cons_of_mem c0 (List.mem_cons_self c1 []))
        (some i) _ 0 _ b sB hB outA.hwf hpA
      have houtBlen := outB.hlen
      have haval : a = s.tree.segs.length + 1 := by
        have := outA.hr
        rw [hsIlen] at this
        exact this
      have hbval : b = sA.tree.segs.length := outB.hr
      have hiltI : i < (sN.setSeg i
          (fun sg => { sg with initial_len := acc + len })).tree.segs.length := by
        rw [hsIlen]
        omega
      have hiltA : i < sA.tree.segs.length := by omega
      have hiltB : i < sB.tree.segs.length := by omega
      have hsIi : (sN.setSeg i
          (fun sg => { sg with initial_len := acc + len })).tree.seg i =
          ⟨pord + 1, 1, par, none, 0, acc + len, 0⟩ := by
        rw [hsegI i, if_neg (by omega), if_pos hi]
      have hsAi : sA.tree.seg i = ⟨pord + 1, 1, par, none, 0, acc + len, 0⟩ := by
        rw [outA.hpre i hiltI, hsIi]
      have hsBi : sB.tree.seg i = ⟨pord + 1, 1, par, none, 0, acc + len, 0⟩ := by
        rw [outB.hpre i hiltA, hsAi]
      have hia : i < a := by omega
      have hib : i < b := by omega
      have halt : a < sB.tree.segs.length := by omega
      have hblt : b < sB.tree.segs.length := by omega
      have hab : a ≠ b := by omega
      have hpaB : (sB.tree.seg a).parent = some i := by
        rw [outB.hpre a (by omega)]
        exact outA.hrpar
      have hpbB : (sB.tree.seg b).parent = some i := outB.hrpar
      refine @traceOut_of_tree_eq _ _ _ _ _
        ⟨{ sB.tree with
            segs := sB.tree.segs.set i
              { sB.tree.seg i with children := some (a, b) },
            intermediate := sB.tree.intermediate ++ [i] }, 0, []⟩ _ rfl ?_
      have hlenT : ({ sB.tree with
          segs := sB.tree.segs.set i
            { sB.tree.seg i with children := some (a, b) },
          intermediate := sB.tree.intermediate ++ [i] } : Tree).segs.length =
          sB.tree.segs.length := by
        show (sB.tree.segs.set i _).length = _
        rw [List.length_set]
      have hsegT : ∀ j, ({ sB.tree with
          segs := sB.tree.segs.set i
            { sB.tree.seg i with children := some (a, b) },
          intermediate := sB.tree.intermediate ++ [i] } : Tree).seg j =
            if j = i then { sB.tree.seg i with children := some (a, b) }
            else sB.tree.seg j := by
        intro j
        show (sB.tree.segs.set i _).getD j default = _
        rw [seg_set]
        by_cases h1 : j = i
        · rw [if_pos ⟨h1, hiltB⟩, if_pos h1]
        · rw [if_neg (by simp [h1]), if_neg h1]
      have hwfT : Wf { sB.tree with
          segs := sB.tree.segs.set i
            { sB.tree.seg i with children := some (a, b) },
          intermediate := sB.tree.intermediate ++ [i] } :=
        @wf_shape
          { sB.tree with
            segs := sB.tree.segs.set i
              { sB.tree.seg i with children := some (a, b) } }
          { sB.tree with
            segs := sB.tree.segs.set i
              { sB.tree.seg i with children := some (a, b) },
            intermediate := sB.tree.intermediate ++ [i] }
          rfl (fun _ => rfl) (fun _ => rfl)
          (wf_set_children outB.hwf hia hib halt hblt hab hpaB hpbB)
      have hchTi : (({ sB.tree with
          segs := sB.tree.segs.set i
            { sB.tree.seg i with children := some (a, b) },
          intermediate := sB.tree.intermediate ++ [i] } : Tree).seg i).children =
          some (a, b) := by
        rw [hsegT i, if_pos rfl]
      obtain ⟨ntA, niA, htA, hiA, hbtA, hbiA, hlA, hcA, hsA⟩ := outA.spec
      obtain ⟨ntB, niB, htB, hiB, hbtB, hbiB, hlB, hcB, hsB⟩ := outB.spec
      rw [htermI] at htA
      rw [hintI] at hiA
      rw [hsIlen] at hbtA hbiA
      have hmemA : ∀ j ∈ ntA ++ niA,
          s.tree.segs.length + 1 ≤ j ∧ j < sA.tree.segs.length := by
        intro j hj
        rcases List.mem_append.mp hj with hj | hj
        · exact hbtA j hj
        · exact hbiA j hj
      have hmemB : ∀ j ∈ ntB ++ niB,
          sA.tree.segs.length ≤ j ∧ j < sB.tree.segs.length := by
        intro j hj
        rcases List.mem_append.mp hj with hj | hj
        · exact hbtB j hj
        · exact hbiB j hj
      have hTA : ∀ j, j ∈ ntA ++ niA → ({ sB.tree with
          segs := sB.tree.segs.set i
            { sB.tree.seg i with children := some (a, b) },
          intermediate := sB.tree.intermediate ++ [i] } : Tree).seg j =
            sA.tree.seg j := by
        intro j hj
        obtain ⟨hj1, hj2⟩ := hmemA j hj
        rw [hsegT j, if_neg (by omega), outB.hpre j hj2]
      have hTB : ∀ j, j ∈ ntB ++ niB → ({ sB.tree with
          segs := sB.tree.segs.set i
            { sB.tree.seg i with children := some (a, b) },
          intermediate := sB.tree.intermediate ++ [i] } : Tree).seg j =
            sB.tree.seg j := by
        intro j hj
        obtain ⟨hj1, hj2⟩ := hmemB j hj
        rw [hsegT j, if_neg (by omega)]
      refine ⟨hi, by rw [hlenT]; omega, ?_, ?_, ?_, hwfT, ?_, ?_⟩
      · show sB.tree.params = s.tree.params
        rw [outB.hparams, outA.hparams, hparamsI]
      · show sB.tree.root = s.tree.root
        rw [outB.hroot, outA.hroot, hrootI]
      · intro j hj
        rw [hsegT j, if_neg (by omega), outB.hpre j (by omega),
          outA.hpre j (by omega), hsegI j, if_pos hj]
      · rw [hsegT i, if_pos rfl]
        show (sB.tree.seg i).parent = par
        rw [hsBi]
      · refine ⟨ntA ++ ntB, niA ++ niB ++ [i], ?_, ?_, ?_, ?_, ?_, ?_, ?_⟩
        · show sB.tree.terminal = _
          rw [htB, htA, List.append_assoc]
        · show sB.tree.intermediate ++ [i] = _
          rw [hiB, hiA]
          simp only [List.append_assoc]
        · intro j hj
          rw [hlenT]
          rcases List.mem_append.mp hj with hj | hj
          · have := hbtA j hj
            omega
          · have := hbtB j hj
            omega
        · intro j hj
          rw [hlenT]
          rcases List.mem_append.mp hj with hj | hj
          · rcases List.mem_append.mp hj with hj | hj
            · have := hbiA j hj
              omega
            · have := hbiB j hj
              omega
          · simp only [List.mem_cons, List.not_mem_nil, or_false] at hj
            omega
        · rw [leaves_children hwfT (by rw [hlenT]; omega) hchTi]
          have hla : leaves ({ sB.tree with
              segs := sB.tree.segs.set i
                { sB.tree.seg i with children := some (a, b) },
              intermediate := sB.tree.intermediate ++ [i] } : Tree) a =
              leaves sA.tree a := by
            refine leaves_agree_between outA.hwf hwfT a ?_ le_rfl
              (by omega) (by rw [hlenT]; omega)
            intro j hj1 hj2
            rw [hsegT j, if_neg (by omega), outB.hpre j hj2]
          have hlb : leaves ({ sB.tree with
              segs := sB.tree.segs.set i
                { sB.tree.seg i with children := some (a, b) },
              intermediate := sB.tree.intermediate ++ [i] } : Tree) b =
              leaves sB.tree b := by
            refine leaves_agree_between outB.hwf hwfT b ?_ le_rfl
              (by omega) (by rw [hlenT]; omega)
            intro j hj1 hj2
            rw [hsegT j, if_neg (by omega)]
          rw [hla, hlb, hlA, hlB]
        · rw [List.length_append, hcA, hcB]
          rfl
        · have hmapA : ∀ l : List ℕ, (∀ j ∈ l, j ∈ ntA ++ niA) →
              l.map (fun j => (({ sB.tree with
                segs := sB.tree.segs.set i
                  { sB.tree.seg i with children := some (a, b) },
                intermediate := sB.tree.intermediate ++ [i] } : Tree).seg j).total_len) =
              l.map (fun j => (sA.tree.seg j).total_len) := by
            intro l hl
            refine List.map_congr_left ?_
            intro x hx
            rw [hTA x (hl x hx)]
          have hmapB : ∀ l : List ℕ, (∀ j ∈ l, j ∈ ntB ++ niB) →
              l.map (fun j => (({ sB.tree with
                segs := sB.tree.segs.set i
                  { sB.tree.seg i with children := some (a, b) },
                intermediate := sB.tree.intermediate ++ [i] } : Tree).seg j).total_len) =
              l.map (fun j => (sB.tree.seg j).total_len) := by
            intro l hl
            refine List.map_congr_left ?_
            intro x hx
            rw [hTB x (hl x hx)]
          rw [List.map_append, List.sum_append, List.map_append,
            List.sum_append, List.map_append, List.sum_append]
          rw [hmapA ntA (fun j hj => List.mem_append_left _ hj),
            hmapA niA (fun j hj => List.mem_append_right _ hj),
            hmapB ntB (fun j hj => List.mem_append_left _ hj),
            hmapB niB (fun j hj => List.mem_append_right _ hj)]
          have hmapi : ([i].map (fun j => (({ sB.tree with
              segs := sB.tree.segs.set i
                { sB.tree.seg i with children := some (a, b) },
              intermediate := sB.tree.intermediate ++ [i] } : Tree).seg j).total_len)).sum =
              acc + len := by
            rw [List.map_cons, List.map_nil, List.sum_cons, List.sum_nil,
              hsegT i, if_pos rfl]
            show (sB.tree.seg i).initial_len + (sB.tree.seg i).elongated_len + 0 =
              acc + len
            rw [hsBi]
            show acc + len + 0 + 0 = acc + len
            ring
          rw [hmapi]
          rw [show LineSeg.totalLen (.node len [c0, c1]) =
            len + c0.totalLen + c1.totalLen from rfl]
          linarith [hsA, hsB]
    | c0 :: c1 :: c2 :: cs', hcsle, _, _ =>
      intro par pord acc s r s2 h hwfS hp
      exfalso
      simp only [List.length_cons] at hcsle
      omega

/-- Two arenas of identical shape: everything equal except possibly the
stored degrees. -/
structure ShapeEq (t tcur : Tree) : Prop where
  len : tcur.segs.length = t.segs.length
  ch : ∀ j, (tcur.seg j).children = (t.seg j).children
  par : ∀ j, (tcur.seg j).parent = (t.seg j).parent
  lens : ∀ j, (tcur.seg j).initial_len = (t.seg j).initial_len ∧
    (tcur.seg j).elongated_len = (t.seg j).elongated_len
  term : tcur.terminal = t.terminal
  intm : tcur.intermediate = t.intermediate
  root : tcur.root = t.root

theorem shapeEq_refl (t : Tree) : ShapeEq t t :=
  ⟨rfl, fun _ => rfl, fun _ => rfl, fun _ => ⟨rfl, rfl⟩, rfl, rfl, rfl⟩

/-- Correctness of the importer's degree backfill loop: folding
update_degree over a worklist fixes the degree of every segment whose
leaves are covered by the processed part, and changes nothing else. -/
theorem backfill_fold {t : Tree} (hwf : Wf t) :
    ∀ (rest procd : List ℕ) (tcur : Tree),
      (∀ x ∈ rest, x < t.segs.length) →
      ShapeEq t tcur →
      (∀ j, j < t.segs.length → (∀ y ∈ leaves t j, y ∈ procd) →
        degOk tcur j) →
      ShapeEq t (rest.foldl (fun tt i => update_degree i tt) tcur) ∧
      (∀ j, j < t.segs.length → (∀ y ∈ leaves t j, y ∈ procd ++ rest) →
        degOk (rest.foldl (fun tt i => update_degree i tt) tcur) j) := by
  intro rest
  induction rest with
  | nil =>
    intro procd tcur hb hshape hdeg
    refine ⟨hshape, ?_⟩
    intro j hj hsub
    refine hdeg j hj ?_
    intro y hy
    have := hsub y hy
    simpa using this
  | cons x rest ihx =>
    intro procd tcur hb hshape hdeg
    have hx : x < t.segs.length := hb x (List.mem_cons_self x rest)
    have hwfc : Wf tcur := wf_shape hshape.len hshape.ch hshape.par hwf
    obtain ⟨hl, hpm, ht, hi, hr, hs⟩ := update_degree_fuel_shape (x + 1) x tcur
    have hshape2 : ShapeEq t (update_degree x tcur) := by
      refine ⟨?_, ?_, ?_, ?_, ?_, ?_, ?_⟩
      · rw [update_degree, hl, hshape.len]
      · intro j
        rw [update_degree, (hs j).1, hshape.ch j]
      · intro j
        rw [update_degree, (hs j).2.1, hshape.par j]
      · intro j
        exact ⟨by rw [update_degree, (hs j).2.2.2.2.1, (hshape.lens j).1],
               by rw [update_degree, (hs j).2.2.2.2.2, (hshape.lens j).2]⟩
      · rw [update_degree, ht, hshape.term]
      · rw [update_degree, hi, hshape.intm]
      · rw [update_degree, hr, hshape.root]
    have hleq : ∀ j, leaves tcur j = leaves t j :=
      leaves_shape hshape.len hshape.ch
    have hceq : ∀ j, chain tcur j = chain t j := chain_shape hshape.par
    have hdeg2 : ∀ j, j < t.segs.length →
        (∀ y ∈ leaves t j, y ∈ procd ++ [x]) →
        degOk (update_degree x tcur) j := by
      intro j hj hsub
      refine @update_degree_correct
        (fun n => ∀ y ∈ leaves t n, y ∈ procd ++ [x]) tcur x hwfc
        (by rw [hshape.len]; exact hx) ?_ ?_ j (by rw [hshape.len]; exact hj)
        hsub
      · intro n a b hcn hPn
        rw [hshape.ch] at hcn
        by_cases hn : n < t.segs.length
        · have := leaves_children hwf hn hcn
          constructor
          · intro y hy
            exact hPn y (by rw [this]; exact List.mem_append_left _ hy)
          · intro y hy
            exact hPn y (by rw [this]; exact List.mem_append_right _ hy)
        · exfalso
          have : t.seg n = default := getD_out _ (by omega)
          rw [this] at hcn
          exact Option.noConfusion hcn
      · intro n hn hnc hPn
        rw [hshape.len] at hn
        rw [hceq] at hnc
        refine hdeg n hn ?_
        intro y hy
        have hmem := hPn y hy
        rcases List.mem_append.mp hmem with hmem | hmem
        · exact hmem
        · exfalso
          simp only [List.mem_cons, List.not_mem_nil, or_false] at hmem
          subst hmem
          exact hnc (leaves_mem_chain' hwf hn y hy)
    have hrec := ihx (procd ++ [x]) (update_degree x tcur)
      (fun y hy => hb y (List.mem_cons_of_mem x hy)) hshape2 hdeg2
    obtain ⟨hsf, hdf⟩ := hrec
    rw [List.foldl_cons]
    refine ⟨hsf, ?_⟩
    intro j hj hsub
    refine hdf j hj ?_
    intro y hy
    have := hsub y hy
    simp only [List.mem_append, List.mem_cons] at this ⊢
    tauto

/-- C9: for every well-formed (at most binary) morphology tree, the
importer build_dendrite_from_linesegments produces a tree whose
total_length is the sum of all input edge lengths and whose degree is the
number of leaves of the input, single-child chains being accumulated into
the next branching or terminal segment. -/
theorem claim_C9_importer_roundtrip {ω : ℕ → ℝ} {ls : LineSeg}
    (hls : LineSeg.Wf ls) {s : St}
    (h : build_dendrite_from_linesegments ω ls = .ok s) :
    s.tree.total_length = ls.totalLen ∧ s.tree.degree = ls.leafCt := by
  unfold build_dendrite_from_linesegments at h
  obtain ⟨sM, hM, h⟩ := bind_ok h
  dsimp only at h
  obtain ⟨hpM, hsegsM, htM, hiM, hrM, hixM, hlogM, _⟩ := mkDendriticTree_ok hM
  obtain ⟨⟨r, sT⟩, hT, h⟩ := bind_ok h
  dsimp only at h
  injection h with h
  subst h
  have hsegjE : ∀ j, ({ sM with tree := sM.tree.empty } : St).tree.seg j =
      if j = 0 then ⟨0, 1, none, none, 0, ω 0 + 0, 0⟩ else default := by
    intro j
    show sM.tree.segs.getD j default = _
    rw [hsegsM]
    by_cases hj : j = 0
    · subst hj
      rfl
    · rw [if_neg hj]
      apply getD_out
      simp only [List.length_singleton]
      omega
  have hwfE : Wf ({ sM with tree := sM.tree.empty } : St).tree := by
    have hchn : ∀ j,
        (({ sM with tree := sM.tree.empty } : St).tree.seg j).children = none := by
      intro j
      rw [hsegjE j]
      by_cases hj : j = 0
      · rw [if_pos hj]
      · rw [if_neg hj]
        rfl
    have hpar : ∀ j,
        (({ sM with tree := sM.tree.empty } : St).tree.seg j).parent = none := by
      intro j
      rw [hsegjE j]
      by_cases hj : j = 0
      · rw [if_pos hj]
      · rw [if_neg hj]
        rfl
    constructor
    · intro j a b hcc
      rw [hchn j] at hcc
      exact Option.noConfusion hcc
    · intro j p hpp
      rw [hpar j] at hpp
      exact Option.noConfusion hpp
    · intro j a b hcc
      rw [hchn j] at hcc
      exact Option.noConfusion hcc
  have hlenE : ({ sM with tree := sM.tree.empty } : St).tree.segs.length = 1 := by
    show sM.tree.segs.length = 1
    rw [hsegsM]
    rfl
  have out := trace_spec hls none 0 0 { sM with tree := sM.tree.empty } r sT hT
    hwfE (fun p hp => Option.noConfusion hp)
  obtain ⟨nt, ni, htnt, hini, hbnt, hbni, hlnt, hcnt, hsums⟩ := out.spec
  have htnt2 : sT.tree.terminal = nt := by
    rw [htnt]
    show ([] : List ℕ) ++ nt = nt
    rw [List.nil_append]
  have hini2 : sT.tree.intermediate = ni := by
    rw [hini]
    show ([] : List ℕ) ++ ni = ni
    rw [List.nil_append]
  have hrlt : r < sT.tree.segs.length := by
    have h1 := out.hr
    have h2 := out.hlen
    rw [hlenE] at h1 h2
    omega
  have hwfT : Wf ({ sT.tree with root := some r } : Tree) :=
    @wf_shape sT.tree { sT.tree with root := some r } rfl (fun _ => rfl)
      (fun _ => rfl) out.hwf
  have hlvT : ∀ j, leaves ({ sT.tree with root := some r } : Tree) j =
      leaves sT.tree j :=
    @leaves_shape sT.tree { sT.tree with root := some r } rfl (fun _ => rfl)
  have hbf : backfill ({ sT.tree with root := some r } : Tree) =
      nt.foldl (fun tt i => update_degree i tt) { sT.tree with root := some r } := by
    unfold backfill
    rw [show ({ sT.tree with root := some r } : Tree).terminal = nt from htnt2]
  obtain ⟨hshF, hdegF⟩ := backfill_fold hwfT nt []
    { sT.tree with root := some r }
    (by
      intro x hx
      exact (hbnt x hx).2)
    (shapeEq_refl _)
    (by
      intro j hj hsub
      exfalso
      have hne := leaves_ne_nil hwfT
        ({ sT.tree with root := some r } : Tree).segs.length j (by omega) hj
      obtain ⟨y, hy⟩ := List.exists_mem_of_ne_nil _ hne
      exact absurd (hsub y hy) (List.not_mem_nil y))
  rw [hbf]
  constructor
  · show Tree.total_length _ = _
    unfold Tree.total_length
    rw [hshF.term, hshF.intm,
      show ({ sT.tree with root := some r } : Tree).terminal = nt from htnt2,
      show ({ sT.tree with root := some r } : Tree).intermediate = ni from hini2]
    have hmape : ∀ l : List ℕ,
        l.map (fun i => ((nt.foldl (fun tt i => update_degree i tt)
            { sT.tree with root := some r }).seg i).total_len) =
          l.map (fun i => (sT.tree.seg i).total_len) := by
      intro l
      refine List.map_congr_left ?_
      intro x _
      show _ = Seg.total_len _
      unfold Seg.total_len
      rw [(hshF.lens x).1, (hshF.lens x).2]
      rfl
    rw [hmape nt, hmape ni]
    rw [add_comm]
    rw [hsums]
    ring
  · show Tree.degree _ = _
    have hroot : (nt.foldl (fun tt i => update_degree i tt)
        { sT.tree with root := some r }).root = some r := hshF.root
    simp only [Tree.degree, hroot]
    have hdr := hdegF r hrlt (by
      intro y hy
      rw [hlvT r, hlnt] at hy
      simp only [List.nil_append]
      exact hy)
    simp only [degOk] at hdr
    rw [hdr]
    rw [leaves_shape hshF.len hshF.ch r, hlvT r, hlnt, hcnt]

theorem ls9_wf : LineSeg.Wf ls9 := by
  unfold ls9
  refine .mk _ _ (by norm_num) ?_
  intro c hc
  simp only [List.mem_cons, List.not_mem_nil, or_false] at hc
  subst hc
  refine .mk _ _ (by norm_num) ?_
  intro c hc
  simp only [List.mem_cons, List.not_mem_nil, or_false] at hc
  rcases hc with hc | hc <;> subst hc <;>
    exact .mk _ _ (by norm_num) (fun c hc => absurd hc (List.not_mem_nil c))

theorem build9_eval : build_dendrite_from_linesegments omega1 ls9 = .ok stF9 := by
  unfold build_dendrite_from_linesegments mkDendriticTree deriveBeta
    deriveGamma backfill
  norm_num [ls9, stF9, paramsD, omega1, trace, newSegment, gammavariate,
    Tree.seg, Tree.empty, St.setSeg, update_degree, update_degree_fuel,
    Bind.bind, Except.bind, List.getD, List.set]

/-- Witness for C9 on the concrete morphology ls9: total length 14 and
degree 2 are reproduced. -/
theorem claim_C9_witness :
    build_dendrite_from_linesegments omega1 ls9 = .ok stF9 ∧
    stF9.tree.total_length = ls9.totalLen ∧ stF9.tree.degree = ls9.leafCt :=
  ⟨build9_eval, claim_C9_importer_roundtrip ls9_wf build9_eval⟩

end DendriticModel
